import Mathlib

/-!
Verification development for the binary referral-tree engine of the
ms-nexus-user microservice.

The node store (MongoDB `users` collection) is modelled as a list of user
records; `$graphLookup` traversals are modelled as iterated frontier
expansions along `parent` pointers; the unbounded recursions of the source
are modelled with an explicit fuel argument that is proven sufficient under
the store invariants.  Fields of the user documents that play no role in
the tree engine (password hashes, roles, contact data, timestamps) are
projected away; string fields are modelled as lists of characters so that
the case-insensitive substring search can be stated faithfully.
-/

/-- The `Position` enum of `user.schema.ts` (placement side of a node). -/
inductive Side2 where
  | LEFT
  | RIGHT
deriving DecidableEq

/-- A user document, projected to the fields the tree engine reads or
writes (`user.schema.ts`).  `id` models the Mongo `_id`. -/
structure UserRec where
  id : Nat
  email : List Char
  referralCode : List Char
  referrerCode : Option (List Char)
  parent : Option Nat
  leftChild : Option Nat
  rightChild : Option Nat
  position : Option Side2
  isActive : Bool
  firstName : List Char
  lastName : List Char
  documentNumber : List Char
deriving DecidableEq

/-- The `users` collection. -/
abbrev Store := List UserRec

/-- An `RpcException`, projected to its status code. -/
structure RpcErr where
  status : Nat
deriving DecidableEq

/-- Character-level lower casing, modelling JavaScript `toLowerCase` on the
ASCII texts the service handles. -/
def lowerChars (s : List Char) : List Char := s.map Char.toLower

/-- Character-level upper casing, modelling JavaScript `toUpperCase`. -/
def upperChars (s : List Char) : List Char := s.map Char.toUpper

/-- Whitespace test used by `trimChars`. -/
def isWsChar (c : Char) : Bool :=
  c == ' ' || c == '\t' || c == '\n' || c == '\r'

/-- JavaScript `String.prototype.trim` on character lists. -/
def trimChars (s : List Char) : List Char :=
  ((s.dropWhile isWsChar).reverse.dropWhile isWsChar).reverse

/-- Does the haystack start with the needle? (helper for `hasSub`). -/
def leadsWith : List Char → List Char → Bool
  | [], _ => true
  | _ :: _, [] => false
  | a :: as, b :: bs => a == b && leadsWith as bs

/-- JavaScript `String.prototype.includes`: does the needle occur
contiguously in the haystack? -/
def hasSub (needle : List Char) : List Char → Bool
  | [] => leadsWith needle []
  | b :: bs => leadsWith needle (b :: bs) || hasSub needle bs

/-- Model of `Model.findById`: the store lookup by `_id`. -/
def findById (store : Store) (i : Nat) : Option UserRec :=
  store.find? (fun u => u.id == i)

/-- The child slot of a node on a given side. -/
def slotOf (u : UserRec) : Side2 → Option Nat
  | Side2.LEFT => u.leftChild
  | Side2.RIGHT => u.rightChild

/-- The opposite side (`alternativePosition` computation in
`findOptimalPosition`). -/
def oppSide : Side2 → Side2
  | Side2.LEFT => Side2.RIGHT
  | Side2.RIGHT => Side2.LEFT

/-- Writing a child slot (`parentUser.leftChild = savedUser._id` /
`parentUser.rightChild = savedUser._id` in `register`). -/
def setSlot (u : UserRec) (sd : Side2) (c : Nat) : UserRec :=
  match sd with
  | Side2.LEFT => { u with leftChild := some c }
  | Side2.RIGHT => { u with rightChild := some c }

/-- A fresh `_id` for a new document, modelling Mongo id generation. -/
def freshId (store : Store) : Nat :=
  store.foldr (fun u m => max m (u.id + 1)) 0

/-- Model of `findDeepestAvailablePosition` of `users.service.ts`: walk down the
`targetPosition` branch while that slot is occupied and return the first
node on the branch whose `targetPosition` slot is empty.  The source
recursion is unbounded; `fuel` makes it total, and fuel
`store.length + 1` is proven sufficient under the store invariants. -/
def findDeepest (store : Store) (fuel : Nat) (currentUser : UserRec)
    (targetPosition : Side2) : UserRec :=
  match fuel with
  | 0 => currentUser
  | fuel + 1 =>
    match slotOf currentUser targetPosition with
    | none => currentUser
    | some cid =>
      match findById store cid with
      | some child => findDeepest store fuel child targetPosition
      | none => currentUser

/-- The `targetPosition` computation of `findOptimalPosition`: anything
other than RIGHT (including an omitted preference) maps to LEFT. -/
def targetOf (preferredPosition : Option Side2) : Side2 :=
  if preferredPosition == some Side2.RIGHT then Side2.RIGHT else Side2.LEFT

/-- Model of `findOptimalPosition` of `users.service.ts`: resolve the sponsor by
referral code (must be active), walk the preferred branch with
`findDeepest`, fall back to the opposite branch and finally to the sponsor
itself. -/
def findOptimalPosition (store : Store) (referrerCode : List Char)
    (preferredPosition : Option Side2) : Except RpcErr (UserRec × Side2) :=
  match store.find? (fun u =>
      u.referralCode == upperChars referrerCode && u.isActive) with
  | none => .error ⟨404⟩
  | some referrerUser =>
    let targetPosition := targetOf preferredPosition
    let availableParent :=
      findDeepest store (store.length + 1) referrerUser targetPosition
    if (slotOf availableParent targetPosition).isNone then
      .ok (availableParent, targetPosition)
    else
      let alternativePosition := oppSide targetPosition
      let altParent :=
        findDeepest store (store.length + 1) referrerUser alternativePosition
      if (slotOf altParent alternativePosition).isNone then
        .ok (altParent, alternativePosition)
      else if referrerUser.leftChild.isNone then
        .ok (referrerUser, Side2.LEFT)
      else
        .ok (referrerUser, Side2.RIGHT)

/-- The registration request, projected to the fields that reach the tree
engine (`RegisterDto`). -/
structure RegisterInput where
  email : List Char
  firstName : List Char
  lastName : List Char
  documentNumber : List Char
  referrerCode : Option (List Char)
  preferredPosition : Option Side2

/-- The document created by `register` when the slot allocator resolved a
parent: saved with that parent and the assigned position.  The generated
referral code is modelled by the decimal digits of the fresh id (unique,
already upper case). -/
def newChildDoc (store : Store) (inp : RegisterInput) (parentId : Nat)
    (pos : Side2) (rc : List Char) : UserRec :=
  { id := freshId store
    email := lowerChars inp.email
    referralCode := Nat.toDigits 10 (freshId store)
    referrerCode := some (upperChars rc)
    parent := some parentId
    leftChild := none
    rightChild := none
    position := some pos
    isActive := true
    firstName := inp.firstName
    lastName := inp.lastName
    documentNumber := inp.documentNumber }

/-- The document created by `register` when no referrer code was given:
no parent, and the `assignedPosition` default `Position.LEFT`. -/
def newRootDoc (store : Store) (inp : RegisterInput) : UserRec :=
  { id := freshId store
    email := lowerChars inp.email
    referralCode := Nat.toDigits 10 (freshId store)
    referrerCode := none
    parent := none
    leftChild := none
    rightChild := none
    position := some Side2.LEFT
    isActive := true
    firstName := inp.firstName
    lastName := inp.lastName
    documentNumber := inp.documentNumber }

/-- The storage effect of a placement: save the new document and write the
parent's chosen slot (`parentUser.leftChild/rightChild = savedUser._id`
followed by `parentUser.save()`). -/
def placeChild (store : Store) (parentId : Nat) (sd : Side2)
    (newUser : UserRec) : Store :=
  store.map (fun u => if u.id == parentId then setSlot u sd newUser.id else u)
    ++ [newUser]

/-- The `register` flow of `users.service.ts`, restricted to its effect on
the tree: when a referrer code is given the slot allocator picks
`(parent, position)` and the new document is saved with that parent and
position, after which the parent's chosen slot is written; without a
referrer code the document is saved with no parent and the default
position LEFT.  The email/document/role uniqueness checks, password
hashing and welcome email do not touch the tree and are projected away. -/
def register (store : Store) (inp : RegisterInput) : Except RpcErr Store :=
  match inp.referrerCode with
  | some rc =>
    match findOptimalPosition store rc inp.preferredPosition with
    | .error e => .error e
    | .ok (parentUser, assignedPosition) =>
      .ok (placeChild store parentUser.id assignedPosition
        (newChildDoc store inp parentUser.id assignedPosition rc))
  | none => .ok (store ++ [newRootDoc store inp])

/-- Stores reachable from the empty collection by successful
registrations. -/
inductive ReachableR : Store → Prop
  | base : ReachableR []
  | step {s : Store} {inp : RegisterInput} {t : Store} :
      ReachableR s → register s inp = .ok t → ReachableR t

/-- The immediate children of a node id via the `parent` back pointers:
one `$graphLookup` frontier step (`connectFromField: '_id'`,
`connectToField: 'parent'`). -/
def childrenOf (store : Store) (pid : Nat) : List UserRec :=
  store.filter (fun u => u.parent == some pid)

/-- The `$graphLookup` frontier at recursion depth `k` (direct children of
`rootId` are at depth 0, exactly as Mongo's `depthField` reports). -/
def descLevel (store : Store) (rootId : Nat) : Nat → List UserRec
  | 0 => childrenOf store rootId
  | k + 1 => (descLevel store rootId k).bind (fun u => childrenOf store u.id)

/-- All strict descendants produced by an unbounded `$graphLookup` along
`parent` pointers.  On a well-formed (acyclic) store every frontier beyond
`store.length` is empty, so iterating `store.length` levels captures the
whole transitive closure. -/
def allDescendants (store : Store) (rootId : Nat) : List UserRec :=
  (List.range store.length).bind (fun k => descLevel store rootId k)

/-- Model of `isUserDescendant` of `tree.service.ts`: the aggregation matches the
ancestor document, graph-looks-up all its descendants and tests membership
of the candidate id; an absent ancestor yields `false`. -/
def isUserDescendant (store : Store) (ancestorId descendantId : Nat) : Bool :=
  match findById store ancestorId with
  | none => false
  | some _ =>
    (allDescendants store ancestorId).any (fun u => u.id == descendantId)

/-- The scalar part of an emitted `TreeNode`
(`tree.interface.ts` / `buildNodeRecursive`). -/
structure TreeNodeCore where
  id : Nat
  position : Option Side2
  isActive : Bool
  depth : Nat
deriving DecidableEq

/-- An emitted tree node: the `children` field is `some (left?, right?)`
exactly when the source object carries a `children` property. -/
inductive TreeNode : Type where
  | mk : TreeNodeCore → Option (Option TreeNode × Option TreeNode) → TreeNode

/-- Scalar fields of an emitted node. -/
def TreeNode.core : TreeNode → TreeNodeCore
  | .mk c _ => c

/-- The `children` property of an emitted node, if present. -/
def TreeNode.childrenOpt : TreeNode → Option (Option TreeNode × Option TreeNode)
  | .mk _ ch => ch

/-- Membership of the id→document map assembled by `buildTreeOptimized`
from `getAllDescendants(rootId, maxDepth)`: the root plus every
`$graphLookup` frontier up to recursion depth `maxDepth - 1`. -/
def inUserMap (store : Store) (rootId maxDepth i : Nat) : Bool :=
  i == rootId ||
    (List.range maxDepth).any (fun k =>
      (descLevel store rootId k).any (fun u => u.id == i))

/-- Model of `userMap.get` of `buildTreeOptimized`: the aggregation rows are the
store documents themselves, so a map hit returns the store document. -/
def mapLookup (store : Store) (rootId maxDepth i : Nat) : Option UserRec :=
  if inUserMap store rootId maxDepth i then findById store i else none

/-- Model of `buildNodeRecursive` of `tree.service.ts`: emit the mapped document at
`currentDepth`; while `currentDepth < maxDepth` recurse into the child
slots that hit the map, and attach a `children` property only when at
least one child was built. -/
def buildNodeRecursive (store : Store) (rootId maxDepth userId currentDepth : Nat) :
    Option TreeNode :=
  match mapLookup store rootId maxDepth userId with
  | none => none
  | some user =>
    if h : currentDepth < maxDepth then
      let l :=
        match user.leftChild with
        | some cid => buildNodeRecursive store rootId maxDepth cid (currentDepth + 1)
        | none => none
      let r :=
        match user.rightChild with
        | some cid => buildNodeRecursive store rootId maxDepth cid (currentDepth + 1)
        | none => none
      some (TreeNode.mk ⟨user.id, user.position, user.isActive, currentDepth⟩
        (if l.isSome || r.isSome then some (l, r) else none))
    else
      some (TreeNode.mk ⟨user.id, user.position, user.isActive, currentDepth⟩ none)
termination_by maxDepth - currentDepth
decreasing_by
  all_goals omega

/-- Model of `buildTreeOptimized`: build the nested tree for `rootId` bounded by
`maxDepth`. -/
def buildTreeOptimized (store : Store) (rootId maxDepth : Nat) : Option TreeNode :=
  buildNodeRecursive store rootId maxDepth rootId 0

/-- The response of `getUserTree`, projected to the tree and the
navigation metadata. -/
structure TreeResponse where
  tree : TreeNode
  canGoUp : Bool
  parentId : Option Nat

/-- Model of `getUserTree` of `tree.service.ts`: validate the depth, require the
target to exist, and unless the requester asks for itself require the
target to be a strict descendant of the requester (else 403); then
materialize the subtree.  The ObjectId format checks are not modelled
(ids are numbers here). -/
def getUserTree (store : Store) (userId currentUserId depth : Nat) :
    Except RpcErr TreeResponse :=
  if depth < 1 ∨ 5 < depth then .error ⟨400⟩
  else
    match findById store userId with
    | none => .error ⟨404⟩
    | some targetUser =>
      if userId ≠ currentUserId ∧
          isUserDescendant store currentUserId userId = false then
        .error ⟨403⟩
      else
        match buildTreeOptimized store userId depth with
        | none => .error ⟨500⟩
        | some tree =>
          let canGoUp := userId ≠ currentUserId ∧ targetUser.parent.isSome
          .ok ⟨tree, decide canGoUp, if canGoUp then targetUser.parent else none⟩

/-- The strict ancestors of a node, nearest first, following `parent`
pointers (`$graphLookup` along `startWith: '$parent'`).  Fuel
`store.length` is proven sufficient under the store invariants. -/
def ancestorChain (store : Store) (fuel : Nat) (u : UserRec) : List UserRec :=
  match fuel with
  | 0 => []
  | fuel + 1 =>
    match u.parent with
    | none => []
    | some p =>
      match findById store p with
      | none => []
      | some v => v :: ancestorChain store fuel v

/-- One row of the `getUserAncestors` response, projected to the id and
the recorded side (`site`). -/
structure AncestorEntry where
  userId : Nat
  site : Side2
deriving DecidableEq

/-- Model of `getUserAncestors` of `tree.service.ts`: collect the strict ancestors,
keep only those that are active and carry a `position`, and record each
ancestor's own `position` as `site`. -/
def getUserAncestors (store : Store) (userId : Nat) : List AncestorEntry :=
  match findById store userId with
  | none => []
  | some u =>
    (ancestorChain store store.length u).filterMap (fun ancestor =>
      match ancestor.position with
      | some pos => if ancestor.isActive then some ⟨ancestor.id, pos⟩ else none
      | none => none)

/-- Maximum of a list of naturals, `none` on the empty list (the `$max`
aggregation operator, which yields `null` on no input). -/
def maxNatList : List Nat → Option Nat
  | [] => none
  | x :: xs =>
    match maxNatList xs with
    | none => some x
    | some m => some (max x m)

/-- The `$max: '$descendants.depth'` of `checkMinDepthLevels`: the largest
`$graphLookup` recursion depth reached by any strict descendant. -/
def maxDescDepth (store : Store) (rootId : Nat) : Option Nat :=
  maxNatList ((List.range store.length).bind (fun k =>
    (descLevel store rootId k).map (fun _ => k)))

/-- Model of `checkMinDepthLevels` of `tree.service.ts`: `minDepthLevels ≤ 0` is
automatically satisfied (checked before the user lookup); otherwise the
user must exist and `maxDepth + 1` (0 when there are no descendants) is
compared against the requirement. -/
def checkMinDepthLevels (store : Store) (userId : Nat) (minDepthLevels : Int) :
    Bool :=
  if minDepthLevels ≤ 0 then true
  else
    match findById store userId with
    | none => false
    | some _ =>
      let actualDepth : Int :=
        match maxDescDepth store userId with
        | some m => (m : Int) + 1
        | none => 0
      decide (minDepthLevels ≤ actualDepth)

/-- Model of `getDescendantsInLeg` of `tree.service.ts`: starting at the leg root,
`$graphLookup` its descendants with `maxDepth: 20` (recursion depths
0..20, i.e. 1 to 21 child edges) and return the leg root's own id followed
by the descendant ids; an absent leg root yields `[]`.  The `side`
argument is only logged by the source and is ignored. -/
def getDescendantsInLeg (store : Store) (rootChildId : Nat) (side : Side2) :
    List Nat :=
  match findById store rootChildId with
  | none => []
  | some _ =>
    rootChildId ::
      (List.range 21).bind (fun k =>
        (descLevel store rootChildId k).map (fun u => u.id))

/-- One row of the `searchUsersInTree` response, projected to the fields
the claims mention. -/
structure SearchResult where
  id : Nat
  isActive : Bool
deriving DecidableEq

/-- The `searchUsersInTree` response: the page of results plus the
metadata `total`. -/
structure SearchResponse where
  results : List SearchResult
  total : Nat
deriving DecidableEq

/-- The in-memory filter of `searchUsersInTree`: case-insensitive
substring match of the term against the full name
(`firstName lastName`, lower-cased then trimmed), the email and the
document number. -/
def matchesTerm (searchTerm : List Char) (u : UserRec) : Bool :=
  let fullName := trimChars (lowerChars (u.firstName ++ [' '] ++ u.lastName))
  let email := lowerChars u.email
  let doc := lowerChars u.documentNumber
  hasSub searchTerm fullName || hasSub searchTerm email || hasSub searchTerm doc

/-- Model of `getAllDescendantsForSearch`: the unbounded descendant set of the
requester, restricted to active users. -/
def allActiveDescendants (store : Store) (rootId : Nat) : List UserRec :=
  (allDescendants store rootId).filter (fun u => u.isActive)

/-- Model of `searchUsersInTree` of `tree.service.ts`: reject a trimmed term
shorter than 2 characters with status 400; otherwise fetch the active
descendant set, filter it in memory by the lower-cased trimmed term, and
paginate the filtered list with `slice((page-1)*limit, ...+limit)`;
`total` is the filtered count.  The ObjectId format check on the
requester id is not modelled (ids are numbers here). -/
def searchUsersInTree (store : Store) (currentUserId : Nat)
    (search : List Char) (page limit : Nat) : Except RpcErr SearchResponse :=
  if (trimChars search).length < 2 then .error ⟨400⟩
  else
    let descendants := allActiveDescendants store currentUserId
    let searchTerm := lowerChars (trimChars search)
    let filteredResults := descendants.filter (matchesTerm searchTerm)
    let offset := (page - 1) * limit
    let paginatedResults := (filteredResults.drop offset).take limit
    .ok { results := paginatedResults.map (fun u => ⟨u.id, u.isActive⟩)
          total := filteredResults.length }

/-- The legacy breadth-first `findAvailablePosition` (the pre-rewrite
variant of `users.service.ts` kept in the repository): scan the sponsor's
subtree level by level and return the first dequeued node whose
`targetPosition` slot is empty, falling back to the start node when the
queue empties.  Fuel bounds the number of dequeues. -/
def findAvailableBfs (store : Store) (startUser : UserRec)
    (targetPosition : Side2) : Nat → List UserRec → UserRec
  | 0, _ => startUser
  | _ + 1, [] => startUser
  | fuel + 1, currentUser :: queue =>
    if (slotOf currentUser targetPosition).isNone then currentUser
    else
      let queue1 :=
        match currentUser.leftChild with
        | some cid =>
          match findById store cid with
          | some child => queue ++ [child]
          | none => queue
        | none => queue
      let queue2 :=
        match currentUser.rightChild with
        | some cid =>
          match findById store cid with
          | some child => queue1 ++ [child]
          | none => queue1
        | none => queue1
      findAvailableBfs store startUser targetPosition fuel queue2

/-- Reachability by child edges: `DescAt store rootId u k` holds when the
document `u` is reached from the node with id `rootId` by exactly `k`
`leftChild`/`rightChild` edges (`k = 0` is the root itself). -/
inductive DescAt (store : Store) (rootId : Nat) : UserRec → Nat → Prop
  | zero {u : UserRec} : u ∈ store → u.id = rootId → DescAt store rootId u 0
  | succ {u v : UserRec} {k : Nat} : DescAt store rootId u k → v ∈ store →
      (u.leftChild = some v.id ∨ u.rightChild = some v.id) →
      DescAt store rootId v (k + 1)

/-- Strict ancestry by parent pointers: `AncOf store u a` holds when `a`
is reached from `u` by one or more `parent` steps. -/
inductive AncOf (store : Store) : UserRec → UserRec → Prop
  | single {u v : UserRec} : u.parent = some v.id → v ∈ store → AncOf store u v
  | cons {u v w : UserRec} : u.parent = some v.id → v ∈ store →
      AncOf store v w → AncOf store u w

/-- Reachability along one fixed side: `ChainReach store sd u v` holds when
`v` is reached from `u` by following only `sd`-side child slots. -/
inductive ChainReach (store : Store) (sd : Side2) : UserRec → UserRec → Prop
  | refl (u : UserRec) : ChainReach store sd u u
  | step {u v w : UserRec} : slotOf u sd = some v.id → v ∈ store →
      ChainReach store sd v w → ChainReach store sd u w

/-- Membership in an emitted tree: `InTree t s` holds when `s` is `t` or
one of the nodes nested below it. -/
inductive InTree : TreeNode → TreeNode → Prop
  | refl (t : TreeNode) : InTree t t
  | left {t s c : TreeNode} {r : Option TreeNode} :
      t.childrenOpt = some (some c, r) → InTree c s → InTree t s
  | right {t s c : TreeNode} {l : Option TreeNode} :
      t.childrenOpt = some (l, some c) → InTree c s → InTree t s

/-- A depth assignment certifying acyclicity of the parent relation. -/
def DepOk (store : Store) (dep : Nat → Nat) : Prop :=
  (∀ u ∈ store, ∀ v ∈ store, v.parent = some u.id → dep v.id = dep u.id + 1) ∧
    ∀ u ∈ store, dep u.id < store.length

/-- Well-formedness of the node store, as maintained by the engine: unique
ids, child and parent references resolve, child pointers and parent
pointers are two views of the same edge relation, every non-root node's
`position` names the slot its parent uses for it, and the parent relation
is acyclic (certified by a depth assignment). -/
structure Invariants (store : Store) : Prop where
  nodup : (store.map (fun u => u.id)).Nodup
  childResolve : ∀ u ∈ store, ∀ sd : Side2, ∀ c : Nat,
    slotOf u sd = some c → ∃ v ∈ store, v.id = c
  parentResolve : ∀ u ∈ store, ∀ p : Nat,
    u.parent = some p → ∃ v ∈ store, v.id = p
  edgeParent : ∀ u ∈ store, ∀ v ∈ store, ∀ sd : Side2,
    slotOf u sd = some v.id → v.parent = some u.id
  sideBack : ∀ v ∈ store, ∀ p : Nat, v.parent = some p →
    ∀ u ∈ store, u.id = p →
      ∃ sd : Side2, v.position = some sd ∧ slotOf u sd = some v.id
  acyc : ∃ dep : Nat → Nat, DepOk store dep

instance decForAllSide2 (p : Side2 → Prop)
    [dl : Decidable (p Side2.LEFT)] [dr : Decidable (p Side2.RIGHT)] :
    Decidable (∀ sd : Side2, p sd) :=
  match dl, dr with
  | isTrue hl, isTrue hr =>
    isTrue (fun sd => match sd with | Side2.LEFT => hl | Side2.RIGHT => hr)
  | isFalse hl, _ => isFalse (fun h => hl (h Side2.LEFT))
  | _, isFalse hr => isFalse (fun h => hr (h Side2.RIGHT))

instance decForAllOptEq {α : Type} (o : Option α) (p : α → Prop)
    [∀ a, Decidable (p a)] : Decidable (∀ c : α, o = some c → p c) :=
  match o with
  | none => isTrue (fun c h => by cases h)
  | some a =>
    if h : p a then
      isTrue (fun c hc => by cases hc; exact h)
    else
      isFalse (fun hall => h (hall a rfl))

instance decExistsSide2 (p : Side2 → Prop)
    [dl : Decidable (p Side2.LEFT)] [dr : Decidable (p Side2.RIGHT)] :
    Decidable (∃ sd : Side2, p sd) :=
  match dl with
  | isTrue hl => isTrue ⟨Side2.LEFT, hl⟩
  | isFalse hl =>
    match dr with
    | isTrue hr => isTrue ⟨Side2.RIGHT, hr⟩
    | isFalse hr =>
      isFalse (fun hex => hex.elim (fun sd hp =>
        match sd with
        | Side2.LEFT => hl hp
        | Side2.RIGHT => hr hp))

/-- Helper to write concrete user documents (text fields empty unless a
test needs them). -/
def mkUser (i : Nat) (code : List Char) (par l r : Option Nat)
    (pos : Option Side2) (act : Bool) : UserRec :=
  { id := i
    email := []
    referralCode := code
    referrerCode := none
    parent := par
    leftChild := l
    rightChild := r
    position := pos
    isActive := act
    firstName := []
    lastName := []
    documentNumber := [] }

/-- Sponsor of the C1 counterexample store: both slots taken. -/
def cexA : UserRec := mkUser 1 ['A'] none (some 2) (some 3) none true

/-- Left child of the sponsor, whose own left slot is also taken. -/
def cexB : UserRec := mkUser 2 ['B'] (some 1) (some 4) none (some Side2.LEFT) true

/-- Right child of the sponsor: the shallowest node with a free LEFT slot. -/
def cexC : UserRec := mkUser 3 ['C'] (some 1) none none (some Side2.RIGHT) true

/-- Left-left grandchild of the sponsor: the node the DFS allocator picks. -/
def cexD : UserRec := mkUser 4 ['D'] (some 2) none none (some Side2.LEFT) true

/-- Store on which breadth-first and depth-first allocation differ. -/
def cexStore1 : Store := [cexA, cexB, cexC, cexD]

/-- Node `i` of a 23-node left chain (node 0 is the leg root). -/
def mkChainUser (i : Nat) : UserRec :=
  mkUser i (Nat.toDigits 10 i)
    (if i = 0 then none else some (i - 1))
    (if i < 22 then some (i + 1) else none)
    none
    (if i = 0 then none else some Side2.LEFT)
    true

/-- A left chain of 23 nodes: node 22 is 22 child edges below node 0. -/
def chainStore : Store := (List.range 23).map mkChainUser

/-- Root of the C6 counterexample store. -/
def cexR6 : UserRec := mkUser 0 ['R'] none (some 1) none none true

/-- Only child of `cexR6`. -/
def cexC6 : UserRec := mkUser 1 ['C'] (some 0) none none (some Side2.LEFT) true

/-- Store with exactly one descendant (at depth 1 below the root). -/
def cexStore6 : Store := [cexR6, cexC6]

/-- Root (grandparent) of the C7 counterexample store; no `position`. -/
def cexG7 : UserRec := mkUser 0 ['G'] none none (some 1) none true

/-- Middle node: RIGHT child of the root, with `cexX7` on its LEFT. -/
def cexP7 : UserRec := mkUser 1 ['P'] (some 0) (some 2) none (some Side2.RIGHT) true

/-- Base node of the C7 counterexample ancestor walk. -/
def cexX7 : UserRec := mkUser 2 ['X'] (some 1) none none (some Side2.LEFT) true

/-- Store where an ancestor's own side differs from the traversed edge. -/
def cexStore7 : Store := [cexG7, cexP7, cexX7]

/-- Registration input with no referrer code (C8 counterexample). -/
def inpNoRef : RegisterInput :=
  { email := ['r', '@', 'x']
    firstName := ['r']
    lastName := ['r']
    documentNumber := ['1']
    referrerCode := none
    preferredPosition := none }

/-- Witness store root. -/
def wU0 : UserRec := mkUser 0 ['R'] none (some 1) (some 2) none true

/-- Witness store: active LEFT child of the root. -/
def wU1 : UserRec := mkUser 1 ['S'] (some 0) (some 3) none (some Side2.LEFT) true

/-- Witness store: inactive RIGHT child of the root. -/
def wU2 : UserRec := mkUser 2 ['Q'] (some 0) none none (some Side2.RIGHT) false

/-- Witness store: grandchild named alice (searchable). -/
def wU3 : UserRec :=
  { mkUser 3 ['T'] (some 1) none none (some Side2.LEFT) true with
    firstName := ['a', 'l', 'i', 'c', 'e'] }

/-- A small well-formed store used by the witness theorems. -/
def wStore : Store := [wU0, wU1, wU2, wU3]

/-- Depth assignment certifying acyclicity of `wStore`. -/
def wDep : Nat → Nat := fun i => if i = 0 then 0 else if i ≤ 2 then 1 else 2

/-- Registration input creating a root, used by the C2/C8 witnesses. -/
def wInp1 : RegisterInput :=
  { email := ['a']
    firstName := ['a']
    lastName := ['a']
    documentNumber := ['1']
    referrerCode := none
    preferredPosition := none }

/-- Registration input sponsoring under the first registered user. -/
def wInp2 : RegisterInput :=
  { email := ['b']
    firstName := ['b']
    lastName := ['b']
    documentNumber := ['2']
    referrerCode := some ['0']
    preferredPosition := some Side2.LEFT }

/-- A second registration with the same sponsor and preferred side. -/
def wInp3 : RegisterInput :=
  { email := ['c']
    firstName := ['c']
    lastName := ['c']
    documentNumber := ['3']
    referrerCode := some ['0']
    preferredPosition := some Side2.LEFT }

/-- The stored collection of a successful registration (the error case
does not occur at the witness inputs). -/
def extractStore (e : Except RpcErr Store) : Store :=
  match e with
  | .ok s => s
  | .error _ => []

/-- Store after registering `wInp1` on the empty collection. -/
def wS1 : Store := extractStore (register [] wInp1)

/-- Store after additionally registering `wInp2` (placed under user 0). -/
def wS2 : Store := extractStore (register wS1 wInp2)

/-- Store after additionally registering `wInp3`. -/
def wS3 : Store := extractStore (register wS2 wInp3)

theorem findById_mem {store : Store} {i : Nat} {u : UserRec}
    (h : findById store i = some u) : u ∈ store ∧ u.id = i := by
  unfold findById at h
  refine ⟨List.mem_of_find?_eq_some h, ?_⟩
  have hp := List.find?_some h
  simpa using hp

theorem id_inj {store : Store} (hn : (store.map (fun u => u.id)).Nodup)
    {u v : UserRec} (hu : u ∈ store) (hv : v ∈ store) (hid : u.id = v.id) :
    u = v := by
  induction store with
  | nil => cases hu
  | cons a l ih =>
    have hn' : (∀ x ∈ l, ¬x.id = a.id) ∧ (l.map (fun u => u.id)).Nodup := by
      simpa using hn
    rcases List.mem_cons.mp hu with rfl | hu' <;>
      rcases List.mem_cons.mp hv with rfl | hv'
    · rfl
    · exact absurd hid.symm (hn'.1 v hv')
    · exact absurd hid (hn'.1 u hu')
    · exact ih hn'.2 hu' hv'

theorem findById_of_mem {store : Store}
    (hn : (store.map (fun u => u.id)).Nodup) {u : UserRec} (hu : u ∈ store) :
    findById store u.id = some u := by
  cases h : findById store u.id with
  | none =>
    exfalso
    unfold findById at h
    have := List.find?_eq_none.mp h u hu
    simp at this
  | some v =>
    obtain ⟨hv, hid⟩ := findById_mem h
    rw [id_inj hn hv hu hid]

theorem freshId_gt {store : Store} {u : UserRec} (hu : u ∈ store) :
    u.id < freshId store := by
  induction store with
  | nil => cases hu
  | cons a l ih =>
    have hfold : freshId (a :: l) = max (freshId l) (a.id + 1) := by
      simp [freshId]
    rcases List.mem_cons.mp hu with rfl | h
    · omega
    · have := ih h
      omega

theorem findDeepest_go {store : Store} {dep : Nat → Nat}
    (hn : (store.map (fun u => u.id)).Nodup)
    (hres : ∀ u ∈ store, ∀ sd : Side2, ∀ c : Nat,
      slotOf u sd = some c → ∃ v ∈ store, v.id = c)
    (hedge : ∀ u ∈ store, ∀ v ∈ store, ∀ sd : Side2,
      slotOf u sd = some v.id → v.parent = some u.id)
    (hdep : ∀ u ∈ store, ∀ v ∈ store, v.parent = some u.id →
      dep v.id = dep u.id + 1)
    (hbound : ∀ u ∈ store, dep u.id < store.length)
    (t : Side2) :
    ∀ fuel (cur : UserRec), cur ∈ store → store.length ≤ dep cur.id + fuel →
      findDeepest store fuel cur t ∈ store ∧
        slotOf (findDeepest store fuel cur t) t = none ∧
        ChainReach store t cur (findDeepest store fuel cur t) := by
  intro fuel
  induction fuel with
  | zero =>
    intro cur hcur hle
    exact absurd (hbound cur hcur) (by omega)
  | succ n ih =>
    intro cur hcur hle
    cases hslot : slotOf cur t with
    | none =>
      have hval : findDeepest store (n + 1) cur t = cur := by
        simp only [findDeepest, hslot]
      rw [hval]
      exact ⟨hcur, hslot, ChainReach.refl cur⟩
    | some cid =>
      obtain ⟨v, hv, hvid⟩ := hres cur hcur t cid hslot
      have hfind : findById store cid = some v := by
        rw [← hvid]
        exact findById_of_mem hn hv
      have hslotv : slotOf cur t = some v.id := by rw [hslot, hvid]
      have hpar : v.parent = some cur.id := hedge cur hcur v hv t hslotv
      have hdv : dep v.id = dep cur.id + 1 := hdep cur hcur v hv hpar
      have hrec := ih v hv (by omega)
      have hval : findDeepest store (n + 1) cur t = findDeepest store n v t := by
        simp only [findDeepest, hslot, hfind]
      rw [hval]
      exact ⟨hrec.1, hrec.2.1, ChainReach.step hslotv hv hrec.2.2⟩

theorem findDeepest_full {store : Store} (inv : Invariants store) (t : Side2)
    {cur : UserRec} (hcur : cur ∈ store) :
    findDeepest store (store.length + 1) cur t ∈ store ∧
      slotOf (findDeepest store (store.length + 1) cur t) t = none ∧
      ChainReach store t cur (findDeepest store (store.length + 1) cur t) := by
  obtain ⟨dep, hdep, hbound⟩ := inv.acyc
  exact findDeepest_go inv.nodup inv.childResolve inv.edgeParent hdep hbound t
    (store.length + 1) cur hcur (by omega)

theorem findOptimalPosition_spec {store : Store} (inv : Invariants store)
    {rc : List Char} {pref : Option Side2} {refUser : UserRec}
    (href : store.find? (fun u =>
      u.referralCode == upperChars rc && u.isActive) = some refUser) :
    ∃ par : UserRec,
      findOptimalPosition store rc pref = .ok (par, targetOf pref) ∧
        par ∈ store ∧ slotOf par (targetOf pref) = none ∧
        ChainReach store (targetOf pref) refUser par := by
  have hmem : refUser ∈ store := List.mem_of_find?_eq_some href
  have h := findDeepest_full inv (targetOf pref) hmem
  refine ⟨findDeepest store (store.length + 1) refUser (targetOf pref),
    ?_, h.1, h.2.1, h.2.2⟩
  unfold findOptimalPosition
  rw [href]
  simp only [h.2.1, Option.isNone_none, if_true]

theorem setSlot_id (u : UserRec) (sd : Side2) (c : Nat) :
    (setSlot u sd c).id = u.id := by
  cases sd <;> rfl

theorem setSlot_parent (u : UserRec) (sd : Side2) (c : Nat) :
    (setSlot u sd c).parent = u.parent := by
  cases sd <;> rfl

theorem setSlot_position (u : UserRec) (sd : Side2) (c : Nat) :
    (setSlot u sd c).position = u.position := by
  cases sd <;> rfl

theorem setSlot_isActive (u : UserRec) (sd : Side2) (c : Nat) :
    (setSlot u sd c).isActive = u.isActive := by
  cases sd <;> rfl

theorem setSlot_referralCode (u : UserRec) (sd : Side2) (c : Nat) :
    (setSlot u sd c).referralCode = u.referralCode := by
  cases sd <;> rfl

theorem slotOf_setSlot_same (u : UserRec) (sd : Side2) (c : Nat) :
    slotOf (setSlot u sd c) sd = some c := by
  cases sd <;> rfl

theorem slotOf_setSlot_other {sd sd' : Side2} (hne : sd' ≠ sd)
    (u : UserRec) (c : Nat) : slotOf (setSlot u sd c) sd' = slotOf u sd' := by
  cases sd <;> cases sd' <;> first | rfl | exact absurd rfl hne

theorem newChildDoc_fields (store : Store) (inp : RegisterInput)
    (parentId : Nat) (pos : Side2) (rc : List Char) :
    (newChildDoc store inp parentId pos rc).id = freshId store ∧
      (newChildDoc store inp parentId pos rc).parent = some parentId ∧
      (newChildDoc store inp parentId pos rc).position = some pos ∧
      (newChildDoc store inp parentId pos rc).isActive = true ∧
      ∀ sd : Side2, slotOf (newChildDoc store inp parentId pos rc) sd = none := by
  refine ⟨rfl, rfl, rfl, rfl, fun sd => ?_⟩
  cases sd <;> rfl

theorem newRootDoc_fields (store : Store) (inp : RegisterInput) :
    (newRootDoc store inp).id = freshId store ∧
      (newRootDoc store inp).parent = none ∧
      (newRootDoc store inp).position = some Side2.LEFT ∧
      (newRootDoc store inp).isActive = true ∧
      ∀ sd : Side2, slotOf (newRootDoc store inp) sd = none := by
  refine ⟨rfl, rfl, rfl, rfl, fun sd => ?_⟩
  cases sd <;> rfl

theorem placeChild_ids (store : Store) (parentId : Nat) (sd : Side2)
    (nu : UserRec) :
    (placeChild store parentId sd nu).map (fun u => u.id) =
      store.map (fun u => u.id) ++ [nu.id] := by
  unfold placeChild
  rw [List.map_append, List.map_map]
  congr 1
  apply List.map_congr_left
  intro u _
  simp only [Function.comp_apply]
  split
  · exact setSlot_id u sd nu.id
  · rfl

theorem placeChild_length (store : Store) (parentId : Nat) (sd : Side2)
    (nu : UserRec) :
    (placeChild store parentId sd nu).length = store.length + 1 := by
  have h := congrArg List.length (placeChild_ids store parentId sd nu)
  simpa using h

theorem mem_placeChild_iff {store : Store}
    (hn : (store.map (fun u => u.id)).Nodup) {par : UserRec}
    (hpar : par ∈ store) (sd : Side2) (nu : UserRec) {w : UserRec} :
    w ∈ placeChild store par.id sd nu ↔
      w = nu ∨ w = setSlot par sd nu.id ∨ (w ∈ store ∧ ¬w.id = par.id) := by
  unfold placeChild
  rw [List.mem_append]
  constructor
  · rintro (hmap | hw)
    · obtain ⟨u, hu, hw⟩ := List.mem_map.mp hmap
      by_cases hid : u.id = par.id
      · have : u = par := id_inj hn hu hpar hid
        subst this
        right; left
        rw [← hw]
        simp
      · right; right
        have : w = u := by
          rw [← hw]
          simp [hid]
        subst this
        exact ⟨hu, hid⟩
    · left
      simpa using hw
  · rintro (rfl | rfl | ⟨hw, hid⟩)
    · right; simp
    · left
      refine List.mem_map.mpr ⟨par, hpar, ?_⟩
      simp
    · left
      refine List.mem_map.mpr ⟨w, hw, ?_⟩
      simp [hid]

theorem register_ok_cases {store : Store} {inp : RegisterInput} {t : Store}
    (h : register store inp = .ok t) :
    (∃ rc par sd,
        inp.referrerCode = some rc ∧
        findOptimalPosition store rc inp.preferredPosition = .ok (par, sd) ∧
        t = placeChild store par.id sd (newChildDoc store inp par.id sd rc)) ∨
      (inp.referrerCode = none ∧ t = store ++ [newRootDoc store inp]) := by
  unfold register at h
  cases hrc : inp.referrerCode with
  | none =>
    right
    rw [hrc] at h
    simp only at h
    exact ⟨rfl, (Except.ok.injEq _ _).mp h |>.symm⟩
  | some rc =>
    rw [hrc] at h
    simp only at h
    cases hfop : findOptimalPosition store rc inp.preferredPosition with
    | error e =>
      rw [hfop] at h
      simp at h
    | ok pr =>
      obtain ⟨par, sd⟩ := pr
      rw [hfop] at h
      simp only at h
      left
      exact ⟨rc, par, sd, rfl, hfop, ((Except.ok.injEq _ _).mp h).symm⟩

theorem findOptimalPosition_ok_facts {store : Store} (inv : Invariants store)
    {rc : List Char} {pref : Option Side2} {par : UserRec} {sd : Side2}
    (h : findOptimalPosition store rc pref = .ok (par, sd)) :
    par ∈ store ∧ slotOf par sd = none ∧ sd = targetOf pref ∧
      ∃ refUser ∈ store,
        store.find? (fun u =>
          u.referralCode == upperChars rc && u.isActive) = some refUser ∧
        ChainReach store sd refUser par := by
  cases href : store.find? (fun u =>
      u.referralCode == upperChars rc && u.isActive) with
  | none =>
    exfalso
    unfold findOptimalPosition at h
    rw [href] at h
    simp at h
  | some refUser =>
    obtain ⟨par', heq, hmem, hslot, hchain⟩ := findOptimalPosition_spec inv href
    rw [h] at heq
    have hpair := (Except.ok.injEq _ _).mp heq
    have hpar : par = par' := congrArg Prod.fst hpair
    have hsd : sd = targetOf pref := congrArg Prod.snd hpair
    subst hpar
    subst hsd
    exact ⟨hmem, hslot, rfl, ⟨refUser, List.mem_of_find?_eq_some href, rfl, hchain⟩⟩

theorem no_self_parent {store : Store} (inv : Invariants store) {u : UserRec}
    (hu : u ∈ store) : ¬u.parent = some u.id := by
  intro h
  obtain ⟨dep, hdep, _⟩ := inv.acyc
  have := hdep u hu u hu h
  omega

theorem parent_lt_fresh {store : Store} (inv : Invariants store) {u : UserRec}
    (hu : u ∈ store) {p : Nat} (hp : u.parent = some p) : p < freshId store := by
  obtain ⟨v, hv, hvid⟩ := inv.parentResolve u hu p hp
  exact hvid ▸ freshId_gt hv

theorem slot_lt_fresh {store : Store} (inv : Invariants store) {u : UserRec}
    (hu : u ∈ store) {sd : Side2} {c : Nat} (hc : slotOf u sd = some c) :
    c < freshId store := by
  obtain ⟨v, hv, hvid⟩ := inv.childResolve u hu sd c hc
  exact hvid ▸ freshId_gt hv

theorem ids_append_nodup {store : Store}
    (hn : (store.map (fun u => u.id)).Nodup) {x : Nat}
    (hx : ∀ u ∈ store, u.id ≠ x) :
    (store.map (fun u => u.id) ++ [x]).Nodup := by
  rw [List.nodup_append]
  refine ⟨hn, List.nodup_singleton x, ?_⟩
  intro a ha
  obtain ⟨u, hu, rfl⟩ := List.mem_map.mp ha
  simp [hx u hu]

theorem invariants_empty : Invariants [] := by
  refine ⟨by simp, ?_, ?_, ?_, ?_, ⟨fun _ => 0, ?_, ?_⟩⟩ <;>
    intro u hu <;> cases hu

theorem invariants_append_root {store : Store} (inv : Invariants store)
    (inp : RegisterInput) : Invariants (store ++ [newRootDoc store inp]) := by
  obtain ⟨dep, hdep, hbound⟩ := inv.acyc
  obtain ⟨hid, hpar, hpos, hact, hslots⟩ := newRootDoc_fields store inp
  have hlen : (store ++ [newRootDoc store inp]).length = store.length + 1 := by
    simp
  have hmem : ∀ {w : UserRec}, w ∈ store ++ [newRootDoc store inp] ↔
      w ∈ store ∨ w = newRootDoc store inp := by
    intro w
    simp [List.mem_append]
  have hfreshne : ∀ u ∈ store, u.id ≠ freshId store :=
    fun u hu => Nat.ne_of_lt (freshId_gt hu)
  constructor
  · rw [List.map_append]
    simpa [hid] using ids_append_nodup inv.nodup hfreshne
  · intro u hu sd c hc
    rcases hmem.mp hu with hu' | rfl
    · obtain ⟨v, hv, hvid⟩ := inv.childResolve u hu' sd c hc
      exact ⟨v, hmem.mpr (Or.inl hv), hvid⟩
    · rw [hslots sd] at hc
      cases hc
  · intro u hu p hp
    rcases hmem.mp hu with hu' | rfl
    · obtain ⟨v, hv, hvid⟩ := inv.parentResolve u hu' p hp
      exact ⟨v, hmem.mpr (Or.inl hv), hvid⟩
    · rw [hpar] at hp
      cases hp
  · intro u hu v hv sd hslot
    rcases hmem.mp hu with hu' | rfl
    · rcases hmem.mp hv with hv' | rfl
      · exact inv.edgeParent u hu' v hv' sd hslot
      · rw [hid] at hslot
        exact absurd (slot_lt_fresh inv hu' hslot) (by omega)
    · rw [hslots sd] at hslot
      cases hslot
  · intro v hv p hp u hu hup
    rcases hmem.mp hv with hv' | rfl
    · rcases hmem.mp hu with hu' | rfl
      · exact inv.sideBack v hv' p hp u hu' hup
      · rw [hid] at hup
        exact absurd (hup ▸ parent_lt_fresh inv hv' hp) (by omega)
    · rw [hpar] at hp
      cases hp
  · refine ⟨fun i => if i = freshId store then 0 else dep i, ?_, ?_⟩
    · intro u hu v hv hpv
      rcases hmem.mp hv with hv' | rfl
      · rcases hmem.mp hu with hu' | rfl
        · have h1 := freshId_gt hv'
          have h2 := freshId_gt hu'
          simp only [if_neg (by omega : ¬v.id = freshId store),
            if_neg (by omega : ¬u.id = freshId store)]
          exact hdep u hu' v hv' hpv
        · rw [hid] at hpv
          exact absurd (parent_lt_fresh inv hv' hpv) (by omega)
      · rw [hpar] at hpv
        cases hpv
    · intro u hu
      rw [hlen]
      rcases hmem.mp hu with hu' | rfl
      · have h1 := freshId_gt hu'
        have h2 := hbound u hu'
        simp only [if_neg (by omega : ¬u.id = freshId store)]
        omega
      · rw [hid]
        simp

theorem invariants_place {store : Store} (inv : Invariants store)
    {par : UserRec} (hpar : par ∈ store) {sd : Side2}
    (hempty : slotOf par sd = none) (inp : RegisterInput) (rc : List Char) :
    Invariants (placeChild store par.id sd
      (newChildDoc store inp par.id sd rc)) := by
  obtain ⟨dep, hdep, hbound⟩ := inv.acyc
  obtain ⟨hid, hnupar, hnupos, hnuact, hnuslots⟩ :=
    newChildDoc_fields store inp par.id sd rc
  have hparlt : par.id < freshId store := freshId_gt hpar
  have hfreshne : ∀ u ∈ store, u.id ≠ freshId store :=
    fun u hu => Nat.ne_of_lt (freshId_gt hu)
  have hPid : (setSlot par sd (newChildDoc store inp par.id sd rc).id).id = par.id :=
    setSlot_id par sd _
  have hPpar : (setSlot par sd (newChildDoc store inp par.id sd rc).id).parent = par.parent :=
    setSlot_parent par sd _
  have hPpos : (setSlot par sd (newChildDoc store inp par.id sd rc).id).position = par.position :=
    setSlot_position par sd _
  have hPsame : slotOf (setSlot par sd (newChildDoc store inp par.id sd rc).id) sd =
      some (newChildDoc store inp par.id sd rc).id :=
    slotOf_setSlot_same par sd _
  have hmem : ∀ {w : UserRec},
      w ∈ placeChild store par.id sd (newChildDoc store inp par.id sd rc) ↔
        w = newChildDoc store inp par.id sd rc ∨
          w = setSlot par sd (newChildDoc store inp par.id sd rc).id ∨
          (w ∈ store ∧ ¬w.id = par.id) :=
    fun {w} => mem_placeChild_iff inv.nodup hpar sd _
  have hlen : (placeChild store par.id sd
      (newChildDoc store inp par.id sd rc)).length = store.length + 1 :=
    placeChild_length store par.id sd _
  have hnodup : ((placeChild store par.id sd
      (newChildDoc store inp par.id sd rc)).map (fun u => u.id)).Nodup := by
    rw [placeChild_ids]
    rw [hid]
    exact ids_append_nodup inv.nodup hfreshne
  have hidcover : ∀ x ∈ store,
      ∃ w ∈ placeChild store par.id sd (newChildDoc store inp par.id sd rc),
        w.id = x.id ∧ w.parent = x.parent ∧ w.position = x.position := by
    intro x hx
    by_cases hxp : x.id = par.id
    · have hxpar : x = par := id_inj inv.nodup hx hpar hxp
      subst hxpar
      exact ⟨setSlot x sd (newChildDoc store inp x.id sd rc).id,
        hmem.mpr (Or.inr (Or.inl rfl)), hPid, hPpar, hPpos⟩
    · exact ⟨x, hmem.mpr (Or.inr (Or.inr ⟨hx, hxp⟩)), rfl, rfl, rfl⟩
  constructor
  · exact hnodup
  · -- childResolve
    intro w hw sdx c hc
    rcases hmem.mp hw with rfl | rfl | ⟨hw', hne⟩
    · rw [hnuslots sdx] at hc
      cases hc
    · by_cases hsx : sdx = sd
      · subst hsx
        rw [hPsame] at hc
        refine ⟨newChildDoc store inp par.id sdx rc,
          hmem.mpr (Or.inl rfl), ?_⟩
        exact (Option.some.injEq _ _).mp hc |>.symm ▸ rfl
      · rw [slotOf_setSlot_other hsx] at hc
        obtain ⟨v, hv, hvid⟩ := inv.childResolve par hpar sdx c hc
        obtain ⟨w', hw', hwid, _, _⟩ := hidcover v hv
        exact ⟨w', hw', hwid.trans hvid⟩
    · obtain ⟨v, hv, hvid⟩ := inv.childResolve w hw' sdx c hc
      obtain ⟨w', hw'', hwid, _, _⟩ := hidcover v hv
      exact ⟨w', hw'', hwid.trans hvid⟩
  · -- parentResolve
    intro w hw p hp
    rcases hmem.mp hw with rfl | rfl | ⟨hw', hne⟩
    · rw [hnupar] at hp
      have hpp : p = par.id := ((Option.some.injEq _ _).mp hp).symm
      subst hpp
      exact ⟨setSlot par sd (newChildDoc store inp par.id sd rc).id,
        hmem.mpr (Or.inr (Or.inl rfl)), hPid⟩
    · rw [hPpar] at hp
      obtain ⟨v, hv, hvid⟩ := inv.parentResolve par hpar p hp
      obtain ⟨w', hw', hwid, _, _⟩ := hidcover v hv
      exact ⟨w', hw', hwid.trans hvid⟩
    · obtain ⟨v, hv, hvid⟩ := inv.parentResolve w hw' p hp
      obtain ⟨w', hw'', hwid, _, _⟩ := hidcover v hv
      exact ⟨w', hw'', hwid.trans hvid⟩
  · -- edgeParent
    intro u hu v hv sdx hslot
    rcases hmem.mp hu with rfl | rfl | ⟨hu', hune⟩
    · rw [hnuslots sdx] at hslot
      cases hslot
    · by_cases hsx : sdx = sd
      · subst hsx
        rw [hPsame] at hslot
        have hvid : v.id = (newChildDoc store inp par.id sdx rc).id :=
          ((Option.some.injEq _ _).mp hslot).symm
        rcases hmem.mp hv with rfl | rfl | ⟨hv', hvne⟩
        · rw [hnupar, hPid]
        · rw [hPid] at hvid
          rw [hid] at hvid
          exact absurd hvid (by omega)
        · rw [hid] at hvid
          exact absurd hvid (hfreshne v hv')
      · rw [slotOf_setSlot_other hsx] at hslot
        rcases hmem.mp hv with rfl | rfl | ⟨hv', hvne⟩
        · rw [hid] at hslot
          exact absurd (slot_lt_fresh inv hpar hslot) (by omega)
        · rw [hPid] at hslot
          have := inv.edgeParent par hpar par hpar sdx hslot
          exact absurd this (no_self_parent inv hpar)
        · have := inv.edgeParent par hpar v hv' sdx hslot
          rw [hPid]
          exact this
    · rcases hmem.mp hv with rfl | rfl | ⟨hv', hvne⟩
      · rw [hid] at hslot
        exact absurd (slot_lt_fresh inv hu' hslot) (by omega)
      · rw [hPid] at hslot
        have := inv.edgeParent u hu' par hpar sdx hslot
        rw [hPpar]
        exact this
      · exact inv.edgeParent u hu' v hv' sdx hslot
  · -- sideBack
    intro v hv p hp u hu hup
    rcases hmem.mp hv with rfl | rfl | ⟨hv', hvne⟩
    · rw [hnupar] at hp
      have hpp : p = par.id := ((Option.some.injEq _ _).mp hp).symm
      subst hpp
      have hPmem : setSlot par sd (newChildDoc store inp par.id sd rc).id ∈
          placeChild store par.id sd (newChildDoc store inp par.id sd rc) :=
        hmem.mpr (Or.inr (Or.inl rfl))
      have hu' : u = setSlot par sd (newChildDoc store inp par.id sd rc).id :=
        id_inj hnodup hu hPmem (hup.trans hPid.symm)
      subst hu'
      exact ⟨sd, hnupos, hPsame⟩
    · rw [hPpar] at hp
      obtain ⟨x, hx, hxid⟩ := inv.parentResolve par hpar p hp
      obtain ⟨sdy, hpos, hxslot⟩ := inv.sideBack par hpar p hp x hx hxid
      have hxne : ¬x.id = par.id := by
        intro hxp
        have : x = par := id_inj inv.nodup hx hpar hxp
        subst this
        rw [← hxid] at hp
        exact no_self_parent inv hpar hp
      have hxmem : x ∈ placeChild store par.id sd
          (newChildDoc store inp par.id sd rc) :=
        hmem.mpr (Or.inr (Or.inr ⟨hx, hxne⟩))
      have hux : u = x := id_inj hnodup hu hxmem (hup.trans hxid.symm)
      subst hux
      refine ⟨sdy, by rw [hPpos]; exact hpos, ?_⟩
      rw [hxslot, hPid]
    · obtain ⟨x, hx, hxid⟩ := inv.parentResolve v hv' p hp
      obtain ⟨sdy, hpos, hxslot⟩ := inv.sideBack v hv' p hp x hx hxid
      by_cases hxp : x.id = par.id
      · have hxpar : x = par := id_inj inv.nodup hx hpar hxp
        subst hxpar
        have hPmem : setSlot x sd (newChildDoc store inp x.id sd rc).id ∈
            placeChild store x.id sd (newChildDoc store inp x.id sd rc) :=
          hmem.mpr (Or.inr (Or.inl rfl))
        have hu' : u = setSlot x sd (newChildDoc store inp x.id sd rc).id :=
          id_inj hnodup hu hPmem (by rw [hup, ← hxid, hPid])
        subst hu'
        have hsdy : ¬sdy = sd := by
          intro hs
          subst hs
          rw [hempty] at hxslot
          cases hxslot
        refine ⟨sdy, hpos, ?_⟩
        rw [slotOf_setSlot_other hsdy]
        exact hxslot
      · have hxmem : x ∈ placeChild store par.id sd
            (newChildDoc store inp par.id sd rc) :=
          hmem.mpr (Or.inr (Or.inr ⟨hx, hxp⟩))
        have hux : u = x := id_inj hnodup hu hxmem (hup.trans hxid.symm)
        subst hux
        exact ⟨sdy, hpos, hxslot⟩
  · -- acyclicity
    refine ⟨fun i => if i = freshId store then dep par.id + 1 else dep i, ?_, ?_⟩
    · intro u hu v hv hpv
      rcases hmem.mp hv with rfl | rfl | ⟨hv', hvne⟩
      · rw [hnupar] at hpv
        have huid : u.id = par.id := ((Option.some.injEq _ _).mp hpv).symm
        beta_reduce
        rw [hid, if_pos rfl, huid, if_neg (by omega : ¬par.id = freshId store)]
      · rw [hPpar] at hpv
        rcases hmem.mp hu with rfl | rfl | ⟨hu', hune⟩
        · rw [hid] at hpv
          exact absurd (parent_lt_fresh inv hpar hpv) (by omega)
        · rw [hPid] at hpv
          exact absurd hpv (no_self_parent inv hpar)
        · have h1 := hdep u hu' par hpar hpv
          have h2 := freshId_gt hu'
          beta_reduce
          rw [hPid,
            if_neg (by omega : ¬par.id = freshId store),
            if_neg (by omega : ¬u.id = freshId store)]
          exact h1
      · rcases hmem.mp hu with rfl | rfl | ⟨hu', hune⟩
        · rw [hid] at hpv
          exact absurd (parent_lt_fresh inv hv' hpv) (by omega)
        · rw [hPid] at hpv
          have h1 := hdep par hpar v hv' hpv
          have h2 := freshId_gt hv'
          beta_reduce
          rw [hPid,
            if_neg (by omega : ¬v.id = freshId store),
            if_neg (by omega : ¬par.id = freshId store)]
          exact h1
        · have h1 := hdep u hu' v hv' hpv
          have h2 := freshId_gt hv'
          have h3 := freshId_gt hu'
          beta_reduce
          rw [if_neg (by omega : ¬v.id = freshId store),
            if_neg (by omega : ¬u.id = freshId store)]
          exact h1
    · intro u hu
      rw [hlen]
      have hbpar := hbound par hpar
      rcases hmem.mp hu with rfl | rfl | ⟨hu', hune⟩
      · beta_reduce
        rw [hid, if_pos rfl]
        omega
      · beta_reduce
        rw [hPid, if_neg (by omega : ¬par.id = freshId store)]
        omega
      · have h1 := freshId_gt hu'
        have h2 := hbound u hu'
        beta_reduce
        rw [if_neg (by omega : ¬u.id = freshId store)]
        omega

theorem register_preserves {store : Store} {inp : RegisterInput} {t : Store}
    (inv : Invariants store) (h : register store inp = .ok t) :
    Invariants t ∧ t.length = store.length + 1 ∧
      (∀ u ∈ store, ∃ w ∈ t, w.id = u.id ∧ w.parent = u.parent ∧
        w.position = u.position ∧ w.isActive = u.isActive ∧
        w.referralCode = u.referralCode ∧
        ∀ sdx : Side2, ∀ c : Nat, slotOf u sdx = some c → slotOf w sdx = some c) ∧
      (∀ w ∈ t, w.position.isSome = true ∨ ∃ u ∈ store, w.position = u.position) ∧
      (∀ rc2 par2 sd2, inp.referrerCode = some rc2 →
        findOptimalPosition store rc2 inp.preferredPosition = .ok (par2, sd2) →
        slotOf par2 sd2 = none ∧
          ∃ w ∈ t, w.id = par2.id ∧ slotOf w sd2 = some (freshId store)) := by
  rcases register_ok_cases h with
    ⟨rc, par, sd, hrc, hfop, ht⟩ | ⟨hrc, ht⟩
  · obtain ⟨hparmem, hempty, hsdv, -⟩ := findOptimalPosition_ok_facts inv hfop
    obtain ⟨hid, hnupar, hnupos, hnuact, hnuslots⟩ :=
      newChildDoc_fields store inp par.id sd rc
    have hmem : ∀ {w : UserRec},
        w ∈ placeChild store par.id sd (newChildDoc store inp par.id sd rc) ↔
          w = newChildDoc store inp par.id sd rc ∨
            w = setSlot par sd (newChildDoc store inp par.id sd rc).id ∨
            (w ∈ store ∧ ¬w.id = par.id) :=
      fun {w} => mem_placeChild_iff inv.nodup hparmem sd _
    subst ht
    refine ⟨invariants_place inv hparmem hempty inp rc,
      placeChild_length store par.id sd _, ?_, ?_, ?_⟩
    · intro u hu
      by_cases hup : u.id = par.id
      · have : u = par := id_inj inv.nodup hu hparmem hup
        subst this
        refine ⟨setSlot u sd (newChildDoc store inp u.id sd rc).id,
          hmem.mpr (Or.inr (Or.inl rfl)), setSlot_id u sd _,
          setSlot_parent u sd _, setSlot_position u sd _,
          setSlot_isActive u sd _, setSlot_referralCode u sd _, ?_⟩
        intro sdx c hc
        by_cases hsx : sdx = sd
        · subst hsx
          rw [hempty] at hc
          cases hc
        · rw [slotOf_setSlot_other hsx]
          exact hc
      · exact ⟨u, hmem.mpr (Or.inr (Or.inr ⟨hu, hup⟩)), rfl, rfl, rfl, rfl, rfl,
          fun sdx c hc => hc⟩
    · intro w hw
      rcases hmem.mp hw with rfl | rfl | ⟨hw', _⟩
      · left
        rw [hnupos]
        rfl
      · right
        exact ⟨par, hparmem, setSlot_position par sd _⟩
      · right
        exact ⟨w, hw', rfl⟩
    · intro rc2 par2 sd2 hrc2 hfop2
      rw [hrc] at hrc2
      have hrceq : rc = rc2 := (Option.some.injEq _ _).mp hrc2
      subst hrceq
      rw [hfop] at hfop2
      have hpair := (Except.ok.injEq _ _).mp hfop2
      have hp2 : par = par2 := congrArg Prod.fst hpair
      have hs2 : sd = sd2 := congrArg Prod.snd hpair
      subst hp2
      subst hs2
      refine ⟨hempty, setSlot par sd (newChildDoc store inp par.id sd rc).id,
        hmem.mpr (Or.inr (Or.inl rfl)), setSlot_id par sd _, ?_⟩
      rw [slotOf_setSlot_same, hid]
  · obtain ⟨hid, hnupar, hnupos, hnuact, hnuslots⟩ := newRootDoc_fields store inp
    have hmem : ∀ {w : UserRec}, w ∈ store ++ [newRootDoc store inp] ↔
        w ∈ store ∨ w = newRootDoc store inp := by
      intro w
      simp [List.mem_append]
    subst ht
    refine ⟨invariants_append_root inv inp, by simp, ?_, ?_, ?_⟩
    · intro u hu
      exact ⟨u, hmem.mpr (Or.inl hu), rfl, rfl, rfl, rfl, rfl,
        fun sdx c hc => hc⟩
    · intro w hw
      rcases hmem.mp hw with hw' | rfl
      · right
        exact ⟨w, hw', rfl⟩
      · left
        rw [hnupos]
        rfl
    · intro rc2 par2 sd2 hrc2 hfop2
      rw [hrc] at hrc2
      cases hrc2

theorem reachable_invariants {s : Store} (h : ReachableR s) :
    Invariants s ∧ ∀ u ∈ s, u.position.isSome = true := by
  induction h with
  | base =>
    refine ⟨invariants_empty, ?_⟩
    intro u hu
    cases hu
  | step hrel hreg ih =>
    obtain ⟨inv, hpos⟩ := ih
    obtain ⟨inv', hlen, hback, hfwd, hplaced⟩ := register_preserves inv hreg
    refine ⟨inv', ?_⟩
    intro w hw
    rcases hfwd w hw with hsome | ⟨u, hu, he⟩
    · exact hsome
    · rw [he]
      exact hpos u hu

theorem mem_childrenOf {store : Store} {pid : Nat} {v : UserRec} :
    v ∈ childrenOf store pid ↔ v ∈ store ∧ v.parent = some pid := by
  unfold childrenOf
  simp [List.mem_filter]

theorem edge_to_slot {u : UserRec} {c : Nat}
    (h : u.leftChild = some c ∨ u.rightChild = some c) :
    ∃ sd : Side2, slotOf u sd = some c := by
  rcases h with h | h
  · exact ⟨Side2.LEFT, h⟩
  · exact ⟨Side2.RIGHT, h⟩

theorem slot_to_edge {u : UserRec} {sd : Side2} {c : Nat}
    (h : slotOf u sd = some c) :
    u.leftChild = some c ∨ u.rightChild = some c := by
  cases sd
  · exact Or.inl h
  · exact Or.inr h

theorem descLevel_sub {store : Store} {rootId : Nat} :
    ∀ k, ∀ v ∈ descLevel store rootId k, v ∈ store := by
  intro k
  induction k with
  | zero =>
    intro v hv
    exact (mem_childrenOf.mp hv).1
  | succ n ih =>
    intro v hv
    obtain ⟨u, hu, hv'⟩ := List.mem_bind.mp hv
    exact (mem_childrenOf.mp hv').1

theorem descAt_mem {store : Store} {rootId : Nat} {v : UserRec} {k : Nat}
    (h : DescAt store rootId v k) : v ∈ store := by
  cases h with
  | zero hmem _ => exact hmem
  | succ _ hvmem _ => exact hvmem

theorem mem_descLevel_iff {store : Store} (inv : Invariants store)
    {rootRec : UserRec} (hr : rootRec ∈ store) :
    ∀ k (v : UserRec), v ∈ descLevel store rootRec.id k ↔
      DescAt store rootRec.id v (k + 1) := by
  intro k
  induction k with
  | zero =>
    intro v
    constructor
    · intro hv
      obtain ⟨hvmem, hvpar⟩ := mem_childrenOf.mp hv
      obtain ⟨sd, hpos, hslot⟩ :=
        inv.sideBack v hvmem rootRec.id hvpar rootRec hr rfl
      exact DescAt.succ (DescAt.zero hr rfl) hvmem (slot_to_edge hslot)
    · intro h
      cases h with
      | succ hprev hvmem hedge =>
        rename_i u
        cases hprev with
        | zero humem huid =>
          obtain ⟨sd, hslot⟩ := edge_to_slot hedge
          have hpar := inv.edgeParent u humem v hvmem sd hslot
          rw [huid] at hpar
          exact mem_childrenOf.mpr ⟨hvmem, hpar⟩
  | succ n ih =>
    intro v
    constructor
    · intro hv
      obtain ⟨u, hu, hv'⟩ := List.mem_bind.mp hv
      obtain ⟨hvmem, hvpar⟩ := mem_childrenOf.mp hv'
      have humem : u ∈ store := descLevel_sub n u hu
      obtain ⟨sd, hpos, hslot⟩ := inv.sideBack v hvmem u.id hvpar u humem rfl
      exact DescAt.succ ((ih u).mp hu) hvmem (slot_to_edge hslot)
    · intro h
      cases h with
      | succ hprev hvmem hedge =>
        rename_i u
        obtain ⟨sd, hslot⟩ := edge_to_slot hedge
        have humem : u ∈ store := descAt_mem hprev
        have hpar := inv.edgeParent u humem v hvmem sd hslot
        exact List.mem_bind.mpr ⟨u, (ih u).mpr hprev,
          mem_childrenOf.mpr ⟨hvmem, hpar⟩⟩

theorem descAt_dep {store : Store} (inv : Invariants store) {dep : Nat → Nat}
    (hdep : ∀ u ∈ store, ∀ v ∈ store, v.parent = some u.id →
      dep v.id = dep u.id + 1)
    {rootRec : UserRec} (hr : rootRec ∈ store) :
    ∀ {v : UserRec} {k : Nat}, DescAt store rootRec.id v k →
      dep v.id = dep rootRec.id + k := by
  intro v k h
  induction h with
  | zero hmem hid =>
    rw [hid]
    omega
  | @succ u v' k' hprev hvmem hedge ih =>
    obtain ⟨sd, hslot⟩ := edge_to_slot hedge
    have humem : u ∈ store := descAt_mem hprev
    have hpar := inv.edgeParent u humem v' hvmem sd hslot
    have := hdep u humem v' hvmem hpar
    omega

theorem descAt_k_lt {store : Store} (inv : Invariants store)
    {rootRec : UserRec} (hr : rootRec ∈ store) {v : UserRec} {k : Nat}
    (h : DescAt store rootRec.id v k) : k < store.length := by
  obtain ⟨dep, hdep, hbound⟩ := inv.acyc
  have h1 := descAt_dep inv hdep hr h
  have h2 := hbound v (descAt_mem h)
  omega

theorem descAt_self {store : Store} (inv : Invariants store)
    {rootRec : UserRec} (hr : rootRec ∈ store) {v : UserRec} {k : Nat}
    (h : DescAt store rootRec.id v k) (hv : v.id = rootRec.id) : k = 0 := by
  obtain ⟨dep, hdep, hbound⟩ := inv.acyc
  have h1 := descAt_dep inv hdep hr h
  rw [hv] at h1
  omega

theorem mem_allDescendants_iff {store : Store} (inv : Invariants store)
    {rootRec : UserRec} (hr : rootRec ∈ store) {v : UserRec} :
    v ∈ allDescendants store rootRec.id ↔
      ∃ k, DescAt store rootRec.id v (k + 1) := by
  unfold allDescendants
  rw [List.mem_bind]
  constructor
  · rintro ⟨k, _, hv⟩
    exact ⟨k, (mem_descLevel_iff inv hr k v).mp hv⟩
  · rintro ⟨k, hk⟩
    have hlt := descAt_k_lt inv hr hk
    exact ⟨k, List.mem_range.mpr (by omega),
      (mem_descLevel_iff inv hr k v).mpr hk⟩

theorem isUserDescendant_iff {store : Store} (inv : Invariants store)
    {aRec : UserRec} (ha : aRec ∈ store) (dId : Nat) :
    isUserDescendant store aRec.id dId = true ↔
      ∃ (v : UserRec) (k : Nat), DescAt store aRec.id v (k + 1) ∧ v.id = dId := by
  unfold isUserDescendant
  rw [findById_of_mem inv.nodup ha]
  simp only [List.any_eq_true, beq_iff_eq]
  constructor
  · rintro ⟨u, hu, huid⟩
    obtain ⟨k, hk⟩ := (mem_allDescendants_iff inv ha).mp hu
    exact ⟨u, k, hk, huid⟩
  · rintro ⟨v, k, hk, hvid⟩
    exact ⟨v, (mem_allDescendants_iff inv ha).mpr ⟨k, hk⟩, hvid⟩

theorem isUserDescendant_self {store : Store} (inv : Invariants store)
    {x : UserRec} (hx : x ∈ store) :
    isUserDescendant store x.id x.id = false := by
  cases h : isUserDescendant store x.id x.id with
  | false => rfl
  | true =>
    exfalso
    obtain ⟨v, k, hk, hvid⟩ := (isUserDescendant_iff inv hx x.id).mp h
    exact absurd (descAt_self inv hx hk hvid) (by omega)

theorem inTree_trans {a b c : TreeNode} (h1 : InTree a b) (h2 : InTree b c) :
    InTree a c := by
  induction h1 with
  | refl => exact h2
  | left hch _ ih => exact InTree.left hch (ih h2)
  | right hch _ ih => exact InTree.right hch (ih h2)

theorem mapLookup_some_findById {store : Store} {r d i : Nat} {u : UserRec}
    (h : mapLookup store r d i = some u) : findById store i = some u := by
  unfold mapLookup at h
  split at h
  · exact h
  · cases h

theorem inUserMap_iff {store : Store} (inv : Invariants store)
    {rootRec : UserRec} (hr : rootRec ∈ store) (d i : Nat) :
    inUserMap store rootRec.id d i = true ↔
      i = rootRec.id ∨ ∃ (v : UserRec) (k : Nat), k < d ∧
        DescAt store rootRec.id v (k + 1) ∧ v.id = i := by
  unfold inUserMap
  simp only [Bool.or_eq_true, beq_iff_eq, List.any_eq_true, List.mem_range]
  constructor
  · rintro (h | ⟨k, hk, v, hv, hvid⟩)
    · exact Or.inl h
    · exact Or.inr ⟨v, k, hk, (mem_descLevel_iff inv hr k v).mp hv,
        by simpa using hvid⟩
  · rintro (h | ⟨v, k, hk, hd, hvid⟩)
    · exact Or.inl h
    · exact Or.inr ⟨k, hk, v, (mem_descLevel_iff inv hr k v).mpr hd,
        by simpa using hvid⟩

theorem mapLookup_of_descAt {store : Store} (inv : Invariants store)
    {rootRec : UserRec} (hr : rootRec ∈ store) {u : UserRec} {k d : Nat}
    (h : DescAt store rootRec.id u k) (hk : k ≤ d) :
    mapLookup store rootRec.id d u.id = some u := by
  have hmap : inUserMap store rootRec.id d u.id = true := by
    rw [inUserMap_iff inv hr]
    cases k with
    | zero =>
      cases h with
      | zero hmem hid => exact Or.inl hid
    | succ j =>
      exact Or.inr ⟨u, j, by omega, h, rfl⟩
  unfold mapLookup
  rw [hmap, if_pos rfl]
  exact findById_of_mem inv.nodup (descAt_mem h)

theorem build_isSome {store : Store} {r d i cd : Nat} {u : UserRec}
    (h : mapLookup store r d i = some u) :
    ∃ t, buildNodeRecursive store r d i cd = some t := by
  rw [buildNodeRecursive, h]
  simp only []
  by_cases hd : cd < d
  · rw [dif_pos hd]
    exact ⟨_, rfl⟩
  · rw [dif_neg hd]
    exact ⟨_, rfl⟩

theorem build_core {store : Store} {r d i cd : Nat} {t : TreeNode}
    (h : buildNodeRecursive store r d i cd = some t) :
    ∃ u, mapLookup store r d i = some u ∧
      t.core = ⟨u.id, u.position, u.isActive, cd⟩ := by
  rw [buildNodeRecursive] at h
  cases hm : mapLookup store r d i with
  | none =>
    rw [hm] at h
    simp only [] at h
    cases h
  | some u =>
    rw [hm] at h
    simp only [] at h
    refine ⟨u, rfl, ?_⟩
    by_cases hd : cd < d
    · rw [dif_pos hd] at h
      have := Option.some.inj h
      rw [← this]
      rfl
    · rw [dif_neg hd] at h
      have := Option.some.inj h
      rw [← this]
      rfl

theorem build_leaf {store : Store} {r d i cd : Nat} {t : TreeNode}
    (h : buildNodeRecursive store r d i cd = some t) (hge : ¬cd < d) :
    t.childrenOpt = none := by
  rw [buildNodeRecursive] at h
  cases hm : mapLookup store r d i with
  | none =>
    rw [hm] at h
    simp only [] at h
    cases h
  | some u =>
    rw [hm] at h
    simp only [] at h
    rw [dif_neg hge] at h
    have := Option.some.inj h
    rw [← this]
    rfl

theorem build_children_left {store : Store} {r d i cd : Nat} {t : TreeNode}
    (h : buildNodeRecursive store r d i cd = some t)
    {c : TreeNode} {ro : Option TreeNode}
    (hch : t.childrenOpt = some (some c, ro)) :
    ∃ u cid, mapLookup store r d i = some u ∧ cd < d ∧
      u.leftChild = some cid ∧
      buildNodeRecursive store r d cid (cd + 1) = some c := by
  rw [buildNodeRecursive] at h
  cases hm : mapLookup store r d i with
  | none =>
    rw [hm] at h
    simp only [] at h
    cases h
  | some u =>
    rw [hm] at h
    simp only [] at h
    by_cases hd : cd < d
    · rw [dif_pos hd] at h
      have ht : t = _ := (Option.some.inj h).symm
      rw [ht] at hch
      simp only [TreeNode.childrenOpt] at hch
      cases hL : u.leftChild with
      | none =>
        exfalso
        simp only [hL] at hch
        split at hch
        · have := (Prod.mk.injEq _ _ _ _).mp (Option.some.inj hch)
          cases this.1
        · cases hch
      | some cid =>
        cases hb : buildNodeRecursive store r d cid (cd + 1) with
        | none =>
          exfalso
          simp only [hL, hb] at hch
          split at hch
          · have := (Prod.mk.injEq _ _ _ _).mp (Option.some.inj hch)
            cases this.1
          · cases hch
        | some c' =>
          simp only [hL, hb, Option.isSome_some, Bool.true_or,
            eq_self_iff_true, if_true] at hch
          have := (Prod.mk.injEq _ _ _ _).mp (Option.some.inj hch)
          have hcc : c' = c := Option.some.inj this.1
          subst hcc
          exact ⟨u, cid, rfl, hd, hL, hb⟩
    · exfalso
      rw [dif_neg hd] at h
      have ht : t = _ := (Option.some.inj h).symm
      rw [ht] at hch
      simp only [TreeNode.childrenOpt] at hch
      cases hch

theorem build_children_right {store : Store} {r d i cd : Nat} {t : TreeNode}
    (h : buildNodeRecursive store r d i cd = some t)
    {c : TreeNode} {lo : Option TreeNode}
    (hch : t.childrenOpt = some (lo, some c)) :
    ∃ u cid, mapLookup store r d i = some u ∧ cd < d ∧
      u.rightChild = some cid ∧
      buildNodeRecursive store r d cid (cd + 1) = some c := by
  rw [buildNodeRecursive] at h
  cases hm : mapLookup store r d i with
  | none =>
    rw [hm] at h
    simp only [] at h
    cases h
  | some u =>
    rw [hm] at h
    simp only [] at h
    by_cases hd : cd < d
    · rw [dif_pos hd] at h
      have ht : t = _ := (Option.some.inj h).symm
      rw [ht] at hch
      simp only [TreeNode.childrenOpt] at hch
      cases hR : u.rightChild with
      | none =>
        exfalso
        simp only [hR] at hch
        split at hch
        · have := (Prod.mk.injEq _ _ _ _).mp (Option.some.inj hch)
          cases this.2
        · cases hch
      | some cid =>
        cases hb : buildNodeRecursive store r d cid (cd + 1) with
        | none =>
          exfalso
          simp only [hR, hb] at hch
          split at hch
          · have := (Prod.mk.injEq _ _ _ _).mp (Option.some.inj hch)
            cases this.2
          · cases hch
        | some c' =>
          simp only [hR, hb, Option.isSome_some, Bool.or_true,
            eq_self_iff_true, if_true] at hch
          have := (Prod.mk.injEq _ _ _ _).mp (Option.some.inj hch)
          have hcc : c' = c := Option.some.inj this.2
          subst hcc
          exact ⟨u, cid, rfl, hd, hR, hb⟩
    · exfalso
      rw [dif_neg hd] at h
      have ht : t = _ := (Option.some.inj h).symm
      rw [ht] at hch
      simp only [TreeNode.childrenOpt] at hch
      cases hch

theorem build_children_forward_left {store : Store} {r d cd : Nat}
    {u : UserRec} {su c : TreeNode} {cid : Nat}
    (hmap : mapLookup store r d u.id = some u)
    (hb : buildNodeRecursive store r d u.id cd = some su)
    (hlt : cd < d) (hL : u.leftChild = some cid)
    (hc : buildNodeRecursive store r d cid (cd + 1) = some c) :
    ∃ ro, su.childrenOpt = some (some c, ro) := by
  rw [buildNodeRecursive] at hb
  rw [hmap] at hb
  simp only [] at hb
  rw [dif_pos hlt] at hb
  simp only [hL, hc, Option.isSome_some, Bool.true_or,
    eq_self_iff_true, if_true] at hb
  have hsu : su = _ := (Option.some.inj hb).symm
  rw [hsu]
  exact ⟨_, rfl⟩

theorem build_children_forward_right {store : Store} {r d cd : Nat}
    {u : UserRec} {su c : TreeNode} {cid : Nat}
    (hmap : mapLookup store r d u.id = some u)
    (hb : buildNodeRecursive store r d u.id cd = some su)
    (hlt : cd < d) (hR : u.rightChild = some cid)
    (hc : buildNodeRecursive store r d cid (cd + 1) = some c) :
    ∃ lo, su.childrenOpt = some (lo, some c) := by
  rw [buildNodeRecursive] at hb
  rw [hmap] at hb
  simp only [] at hb
  rw [dif_pos hlt] at hb
  simp only [hR, hc, Option.isSome_some, Bool.or_true,
    eq_self_iff_true, if_true] at hb
  have hsu : su = _ := (Option.some.inj hb).symm
  rw [hsu]
  exact ⟨_, rfl⟩

theorem build_sound_aux {store : Store} (inv : Invariants store)
    {rootRec : UserRec} (hr : rootRec ∈ store) (maxDepth : Nat) :
    ∀ {t s : TreeNode}, InTree t s →
      ∀ userId currentDepth,
        currentDepth ≤ maxDepth →
        (∃ u, findById store userId = some u ∧
          DescAt store rootRec.id u currentDepth) →
        buildNodeRecursive store rootRec.id maxDepth userId currentDepth = some t →
        s.core.depth ≤ maxDepth ∧
          (s.core.depth = maxDepth → s.childrenOpt = none) ∧
          ∃ u, DescAt store rootRec.id u s.core.depth ∧ u.id = s.core.id ∧
            u.isActive = s.core.isActive ∧ u.position = s.core.position := by
  intro t s hin
  induction hin with
  | refl t =>
    intro userId cd hle hdesc hb
    obtain ⟨u0, hfind, hdes⟩ := hdesc
    obtain ⟨u, hmap, hcore⟩ := build_core hb
    have hu : u = u0 := by
      have h2 := mapLookup_some_findById hmap
      rw [hfind] at h2
      exact (Option.some.inj h2).symm
    subst hu
    rw [hcore]
    refine ⟨hle, ?_, u, hdes, rfl, rfl, rfl⟩
    intro hd
    have hd' : cd = maxDepth := hd
    exact build_leaf hb (by omega)
  | left hch hsub ih =>
    intro userId cd hle hdesc hb
    obtain ⟨u, cid, hmap, hlt, hL, hbc⟩ := build_children_left hb hch
    obtain ⟨u0, hfind, hdes⟩ := hdesc
    have hu : u = u0 := by
      have h2 := mapLookup_some_findById hmap
      rw [hfind] at h2
      exact (Option.some.inj h2).symm
    subst hu
    obtain ⟨uc, hmc, hcc⟩ := build_core hbc
    have hfc : findById store cid = some uc := mapLookup_some_findById hmc
    obtain ⟨hucmem, hucid⟩ := findById_mem hfc
    have hdes_c : DescAt store rootRec.id uc (cd + 1) :=
      DescAt.succ hdes hucmem (Or.inl (by rw [hucid]; exact hL))
    exact ih cid (cd + 1) (by omega) ⟨uc, hfc, hdes_c⟩ hbc
  | right hch hsub ih =>
    intro userId cd hle hdesc hb
    obtain ⟨u, cid, hmap, hlt, hR, hbc⟩ := build_children_right hb hch
    obtain ⟨u0, hfind, hdes⟩ := hdesc
    have hu : u = u0 := by
      have h2 := mapLookup_some_findById hmap
      rw [hfind] at h2
      exact (Option.some.inj h2).symm
    subst hu
    obtain ⟨uc, hmc, hcc⟩ := build_core hbc
    have hfc : findById store cid = some uc := mapLookup_some_findById hmc
    obtain ⟨hucmem, hucid⟩ := findById_mem hfc
    have hdes_c : DescAt store rootRec.id uc (cd + 1) :=
      DescAt.succ hdes hucmem (Or.inr (by rw [hucid]; exact hR))
    exact ih cid (cd + 1) (by omega) ⟨uc, hfc, hdes_c⟩ hbc

theorem build_complete {store : Store} (inv : Invariants store)
    {rootRec : UserRec} (hr : rootRec ∈ store) {maxDepth : Nat} {t0 : TreeNode}
    (ht0 : buildNodeRecursive store rootRec.id maxDepth rootRec.id 0 = some t0) :
    ∀ {u : UserRec} {k : Nat}, DescAt store rootRec.id u k → k ≤ maxDepth →
      ∃ s, buildNodeRecursive store rootRec.id maxDepth u.id k = some s ∧
        InTree t0 s := by
  intro u k h
  induction h with
  | zero hmem hid =>
    intro _
    rw [hid]
    exact ⟨t0, ht0, InTree.refl t0⟩
  | @succ u' v k' hprev hvmem hedge ih =>
    intro hk
    have hlt : k' < maxDepth := by omega
    obtain ⟨su, hbu, hinu⟩ := ih (by omega)
    have hmapu : mapLookup store rootRec.id maxDepth u'.id = some u' :=
      mapLookup_of_descAt inv hr hprev (by omega)
    have hmapv : mapLookup store rootRec.id maxDepth v.id = some v :=
      mapLookup_of_descAt inv hr (DescAt.succ hprev hvmem hedge) hk
    obtain ⟨sv, hbv⟩ := @build_isSome _ _ _ _ (k' + 1) _ hmapv
    refine ⟨sv, hbv, inTree_trans hinu ?_⟩
    rcases hedge with hL | hR
    · obtain ⟨ro, hch⟩ := build_children_forward_left hmapu hbu hlt hL hbv
      exact InTree.left hch (InTree.refl sv)
    · obtain ⟨lo, hch⟩ := build_children_forward_right hmapu hbu hlt hR hbv
      exact InTree.right hch (InTree.refl sv)

theorem ancestorChain_sound {store : Store} :
    ∀ fuel (u : UserRec), ∀ a ∈ ancestorChain store fuel u,
      AncOf store u a := by
  intro fuel
  induction fuel with
  | zero =>
    intro u a ha
    cases ha
  | succ n ih =>
    intro u a ha
    cases hp : u.parent with
    | none =>
      simp only [ancestorChain, hp] at ha
      cases ha
    | some p =>
      simp only [ancestorChain, hp] at ha
      cases hf : findById store p with
      | none =>
        simp only [hf] at ha
        cases ha
      | some v =>
        simp only [hf] at ha
        obtain ⟨hvmem, hvid⟩ := findById_mem hf
        have hpv : u.parent = some v.id := by rw [hp, hvid]
        rcases List.mem_cons.mp ha with rfl | ha'
        · exact AncOf.single hpv hvmem
        · exact AncOf.cons hpv hvmem (ih v a ha')

theorem ancestorChain_complete {store : Store} (inv : Invariants store)
    {dep : Nat → Nat}
    (hdep : ∀ u ∈ store, ∀ v ∈ store, v.parent = some u.id →
      dep v.id = dep u.id + 1) :
    ∀ fuel (u : UserRec), u ∈ store → dep u.id < fuel →
      ∀ a, AncOf store u a → a ∈ ancestorChain store fuel u := by
  intro fuel
  induction fuel with
  | zero =>
    intro u hu hlt a ha
    omega
  | succ n ih =>
    intro u hu hlt a ha
    cases ha with
    | single hp hv =>
      simp only [ancestorChain, hp, findById_of_mem inv.nodup hv]
      exact List.mem_cons_self _ _
    | cons hp hv ha' =>
      rename_i v
      simp only [ancestorChain, hp, findById_of_mem inv.nodup hv]
      have hdv : dep u.id = dep v.id + 1 := hdep v hv u hu hp
      exact List.mem_cons.mpr (Or.inr (ih v hv (by omega) a ha'))

theorem ancOf_mem {store : Store} {u a : UserRec} (h : AncOf store u a) :
    a ∈ store := by
  induction h with
  | single _ hv => exact hv
  | cons _ _ _ ih => exact ih

theorem getUserAncestors_iff {store : Store} (inv : Invariants store)
    {uRec : UserRec} (hu : uRec ∈ store) (e : AncestorEntry) :
    e ∈ getUserAncestors store uRec.id ↔
      ∃ a : UserRec, AncOf store uRec a ∧ a.isActive = true ∧
        a.position = some e.site ∧ a.id = e.userId := by
  unfold getUserAncestors
  rw [findById_of_mem inv.nodup hu]
  rw [List.mem_filterMap]
  constructor
  · rintro ⟨a, ha, hf⟩
    have hanc := ancestorChain_sound store.length uRec a ha
    cases hpos : a.position with
    | none =>
      rw [hpos] at hf
      cases hf
    | some pos =>
      rw [hpos] at hf
      simp only [] at hf
      split at hf
      · rename_i hact
        have he := Option.some.inj hf
        refine ⟨a, hanc, hact, ?_, ?_⟩
        · rw [← he]
          exact hpos
        · rw [← he]
      · cases hf
  · rintro ⟨a, hanc, hact, hpos, hid⟩
    obtain ⟨dep, hdep, hbound⟩ := inv.acyc
    refine ⟨a, ancestorChain_complete inv hdep store.length uRec hu
      (hbound uRec hu) a hanc, ?_⟩
    simp only [hpos, hact, eq_self_iff_true, if_true, hid]

theorem maxNatList_eq_none {l : List Nat} : maxNatList l = none ↔ l = [] := by
  cases l with
  | nil => simp [maxNatList]
  | cons x xs =>
    simp only [maxNatList]
    constructor
    · intro h
      split at h <;> cases h
    · intro h
      cases h

theorem maxNatList_spec {l : List Nat} :
    ∀ {m : Nat}, maxNatList l = some m → m ∈ l ∧ ∀ x ∈ l, x ≤ m := by
  induction l with
  | nil =>
    intro m h
    cases h
  | cons x xs ih =>
    intro m h
    rw [maxNatList] at h
    cases hxs : maxNatList xs with
    | none =>
      rw [hxs] at h
      have hm : x = m := Option.some.inj h
      subst hm
      have hnil : xs = [] := maxNatList_eq_none.mp hxs
      subst hnil
      refine ⟨List.mem_cons_self _ _, ?_⟩
      intro y hy
      rcases List.mem_cons.mp hy with rfl | hy'
      · exact Nat.le_refl _
      · cases hy'
    | some m' =>
      rw [hxs] at h
      have hm : max x m' = m := Option.some.inj h
      obtain ⟨hmem, hbd⟩ := ih hxs
      constructor
      · rcases max_choice x m' with hc | hc
        · rw [← hm, hc]
          exact List.mem_cons_self _ _
        · rw [← hm, hc]
          exact List.mem_cons.mpr (Or.inr hmem)
      · intro y hy
        rcases List.mem_cons.mp hy with rfl | hy'
        · rw [← hm]
          exact le_max_left _ _
        · exact le_trans (hbd y hy') (hm ▸ le_max_right x m')

theorem descLevel_ids_nodup {store : Store} (inv : Invariants store)
    (rootId : Nat) :
    ∀ k, ((descLevel store rootId k).map (fun u => u.id)).Nodup := by
  intro k
  induction k with
  | zero =>
    have hsub : List.Sublist (childrenOf store rootId) store :=
      List.filter_sublist _
    exact (hsub.map (fun u => u.id)).nodup inv.nodup
  | succ n ih =>
    show (((descLevel store rootId n).bind
      (fun u => childrenOf store u.id)).map (fun u => u.id)).Nodup
    rw [List.map_bind, List.nodup_flatMap]
    constructor
    · intro x _
      have hsub : List.Sublist (childrenOf store x.id) store :=
        List.filter_sublist _
      exact (hsub.map (fun u => u.id)).nodup inv.nodup
    · have hpair : (descLevel store rootId n).Pairwise
          (fun a b => a.id ≠ b.id) := by
        have h := ih
        unfold List.Nodup at h
        rw [List.pairwise_map] at h
        exact h
      refine List.Pairwise.imp ?_ hpair
      intro a b hne i hia hib
      obtain ⟨v, hv, hvid⟩ := List.mem_map.mp hia
      obtain ⟨w, hw, hwid⟩ := List.mem_map.mp hib
      obtain ⟨hvmem, hvpar⟩ := mem_childrenOf.mp hv
      obtain ⟨hwmem, hwpar⟩ := mem_childrenOf.mp hw
      have hvw : v = w := id_inj inv.nodup hvmem hwmem (by rw [hvid, hwid])
      subst hvw
      rw [hvpar] at hwpar
      exact hne (Option.some.inj hwpar)

theorem allDescendants_ids_nodup {store : Store} (inv : Invariants store)
    {rootRec : UserRec} (hr : rootRec ∈ store) :
    ((allDescendants store rootRec.id).map (fun u => u.id)).Nodup := by
  unfold allDescendants
  rw [List.map_bind, List.nodup_flatMap]
  constructor
  · intro k _
    exact descLevel_ids_nodup inv rootRec.id k
  · refine List.Pairwise.imp ?_ (List.pairwise_lt_range store.length)
    intro k j hkj i hik hij
    obtain ⟨v, hv, hvid⟩ := List.mem_map.mp hik
    obtain ⟨w, hw, hwid⟩ := List.mem_map.mp hij
    have hvmem : v ∈ store := descLevel_sub k v hv
    have hwmem : w ∈ store := descLevel_sub j w hw
    have hvw : v = w := id_inj inv.nodup hvmem hwmem (by rw [hvid, hwid])
    subst hvw
    have h1 := (mem_descLevel_iff inv hr k v).mp hv
    have h2 := (mem_descLevel_iff inv hr j v).mp hw
    obtain ⟨dep, hdep, hbound⟩ := inv.acyc
    have d1 := descAt_dep inv hdep hr h1
    have d2 := descAt_dep inv hdep hr h2
    omega

theorem mem_allActiveDescendants_iff {store : Store} (inv : Invariants store)
    {rootRec : UserRec} (hr : rootRec ∈ store) {v : UserRec} :
    v ∈ allActiveDescendants store rootRec.id ↔
      (∃ k, DescAt store rootRec.id v (k + 1)) ∧ v.isActive = true := by
  unfold allActiveDescendants
  rw [List.mem_filter]
  rw [mem_allDescendants_iff inv hr]

theorem allActiveDescendants_ids_nodup {store : Store} (inv : Invariants store)
    {rootRec : UserRec} (hr : rootRec ∈ store) :
    ((allActiveDescendants store rootRec.id).map (fun u => u.id)).Nodup := by
  unfold allActiveDescendants
  have hsub : List.Sublist
      ((allDescendants store rootRec.id).filter (fun u => u.isActive))
      (allDescendants store rootRec.id) := List.filter_sublist _
  exact (hsub.map (fun u => u.id)).nodup (allDescendants_ids_nodup inv hr)

theorem wStore_invariants : Invariants wStore := by
  refine ⟨by decide, by decide, by decide, by decide, by decide,
    ⟨wDep, by decide, by decide⟩⟩

theorem chain_descAt : ∀ i : Nat, i ≤ 22 →
    DescAt chainStore 0 (mkChainUser i) i := by
  intro i
  induction i with
  | zero =>
    intro _
    exact DescAt.zero (by decide) rfl
  | succ n ih =>
    intro h
    refine DescAt.succ (ih (by omega)) ?_ (Or.inl ?_)
    · exact List.mem_map.mpr ⟨n + 1, List.mem_range.mpr (by omega), rfl⟩
    · show (mkChainUser n).leftChild = some (mkChainUser (n + 1)).id
      unfold mkChainUser mkUser
      simp only []
      rw [if_pos (by omega : n < 22)]

theorem descAt_trunc {store : Store} {r : Nat} :
    ∀ {v : UserRec} {k : Nat}, DescAt store r v k →
      ∀ j, j ≤ k → ∃ w, DescAt store r w j := by
  intro v k h
  induction h with
  | zero hm hi =>
    intro j hj
    have : j = 0 := by omega
    subst this
    exact ⟨_, DescAt.zero hm hi⟩
  | @succ u v' k' hprev hm he ih =>
    intro j hj
    by_cases hj' : j ≤ k'
    · exact ih j hj'
    · have : j = k' + 1 := by omega
      subst this
      exact ⟨v', DescAt.succ hprev hm he⟩

/-- C1 (counterexample): the live allocator is not breadth-first.  In
`cexStore1` the sponsor's RIGHT child `cexC` (depth 1) has a free LEFT
slot, so a breadth-first scan — modelled by `findAvailableBfs`, the
legacy variant kept in the repository — selects it; but
`findOptimalPosition` walks only the LEFT chain and returns the LEFT-LEFT
grandchild `cexD` at depth 2, which is not the shallowest node with a
free preferred slot.  This refutes the claim that the allocator returns
the shallowest available slot of the whole subtree. -/
theorem C1_counterexample :
    findOptimalPosition cexStore1 ['A'] (some Side2.LEFT) =
      .ok (cexD, Side2.LEFT) ∧
    DescAt cexStore1 1 cexC 1 ∧ cexC.leftChild = none ∧
    DescAt cexStore1 1 cexD 2 ∧ cexD.id ≠ cexC.id ∧
    findAvailableBfs cexStore1 cexA Side2.LEFT (cexStore1.length + 1) [cexA] =
      cexC := by
  refine ⟨rfl, ?_, rfl, ?_, by decide, rfl⟩
  · exact @DescAt.succ cexStore1 1 cexA cexC 0
      (@DescAt.zero cexStore1 1 cexA (by decide) rfl) (by decide) (Or.inr rfl)
  · exact @DescAt.succ cexStore1 1 cexB cexD 1
      (@DescAt.succ cexStore1 1 cexA cexB 0
        (@DescAt.zero cexStore1 1 cexA (by decide) rfl) (by decide) (Or.inl rfl))
      (by decide) (Or.inl rfl)

/-- C1 (amended): for every sponsor whose referral code resolves to an
existing active node and every preferred side, the slot allocator walks
depth-first down the preferred-side chain only (each step moves to the
current node's preferred-side child) and returns the first node on that
chain whose preferred-side slot is empty, granting the preferred side;
since the chain steps only through occupied preferred slots, the result
is the unique free slot on that chain — possibly deeper than the
shallowest free slot elsewhere in the sponsor's subtree, which is never
examined. -/
theorem C1_allocator_dfs {store : Store} (inv : Invariants store)
    {rc : List Char} {pref : Option Side2} {refUser : UserRec}
    (href : store.find? (fun u =>
      u.referralCode == upperChars rc && u.isActive) = some refUser) :
    ∃ par : UserRec,
      findOptimalPosition store rc pref = .ok (par, targetOf pref) ∧
        par ∈ store ∧ slotOf par (targetOf pref) = none ∧
        ChainReach store (targetOf pref) refUser par :=
  findOptimalPosition_spec inv href

theorem C1_allocator_dfs_witness :
    ∃ par : UserRec,
      findOptimalPosition wStore ['S'] (some Side2.LEFT) =
        .ok (par, targetOf (some Side2.LEFT)) ∧
        par ∈ wStore ∧ slotOf par (targetOf (some Side2.LEFT)) = none ∧
        ChainReach wStore (targetOf (some Side2.LEFT)) wU1 par :=
  C1_allocator_dfs wStore_invariants rfl

/-- C2: in every store reachable by registrations, a successful
registration never overwrites or clears an occupied child slot — every
occupied slot keeps its value (matched by id) in the new store — and
after a placement at `(par, sd)` any subsequent allocation resolving the
same sponsor code returns a different `(parent, side)` pair, because the
allocator only ever returns empty slots and `(par, sd)` is now
occupied. -/
theorem C2_write_once {s : Store} (hreach : ReachableR s)
    {inp : RegisterInput} {t : Store} (hreg : register s inp = .ok t) :
    (∀ u ∈ s, ∀ sd : Side2, ∀ c : Nat, slotOf u sd = some c →
      ∃ w ∈ t, w.id = u.id ∧ slotOf w sd = some c) ∧
    (∀ rc par sd, inp.referrerCode = some rc →
      findOptimalPosition s rc inp.preferredPosition = .ok (par, sd) →
      slotOf par sd = none ∧
      ∀ (pref2 : Option Side2) (par2 : UserRec) (sd2 : Side2),
        findOptimalPosition t rc pref2 = .ok (par2, sd2) →
        ¬(par2.id = par.id ∧ sd2 = sd)) := by
  have inv := (reachable_invariants hreach).1
  obtain ⟨inv', hlen, hback, hfwd, hplaced⟩ := register_preserves inv hreg
  constructor
  · intro u hu sd c hc
    obtain ⟨w, hwmem, hwid, _, _, _, _, hslots⟩ := hback u hu
    exact ⟨w, hwmem, hwid, hslots sd c hc⟩
  · intro rc par sd hrc hfop
    obtain ⟨hempty, w, hwmem, hwid, hwslot⟩ := hplaced rc par sd hrc hfop
    refine ⟨hempty, ?_⟩
    rintro pref2 par2 sd2 hfop2 ⟨hid2, hsd2⟩
    subst hsd2
    obtain ⟨hpar2mem, hslot2, -, -⟩ := findOptimalPosition_ok_facts inv' hfop2
    have : par2 = w := id_inj inv'.nodup hpar2mem hwmem (hid2.trans hwid.symm)
    subst this
    rw [hslot2] at hwslot
    cases hwslot

theorem C2_write_once_witness :
    ∃ w ∈ wS3, w.id = 0 ∧ slotOf w Side2.LEFT = some 1 := by
  have h1 : register [] wInp1 = .ok wS1 := rfl
  have h2 : register wS1 wInp2 = .ok wS2 := rfl
  have h3 : register wS2 wInp3 = .ok wS3 := rfl
  have hreach : ReachableR wS2 :=
    ReachableR.step (ReachableR.step ReachableR.base h1) h2
  have hu : ∃ u, u ∈ wS2 ∧ u.id = 0 ∧ slotOf u Side2.LEFT = some 1 := by
    decide
  obtain ⟨u, humem, huid, huslot⟩ := hu
  obtain ⟨w, hwmem, hwid, hwslot⟩ :=
    (C2_write_once hreach h3).1 u humem Side2.LEFT 1 huslot
  exact ⟨w, hwmem, hwid.trans huid, hwslot⟩

/-- C8 (counterexample): a registration without a referrer code creates a
parentless node whose `position` is nevertheless defined (the
`assignedPosition` default LEFT), refuting "side is defined exactly when
the node has a parent". -/
theorem C8_counterexample :
    register [] inpNoRef = .ok [newRootDoc [] inpNoRef] ∧
    (newRootDoc [] inpNoRef).parent = none ∧
    (newRootDoc [] inpNoRef).position = some Side2.LEFT :=
  ⟨rfl, rfl, rfl⟩

/-- C8 (amended): in every store reachable by registrations, every node
has a defined `position` (registration always assigns one, defaulting to
LEFT for a parentless registration), and whenever the node has a parent,
its position equals the child-slot name under which the parent points
back to it. -/
theorem C8_side_invariant {s : Store} (h : ReachableR s) :
    ∀ u ∈ s, ∃ sd : Side2, u.position = some sd ∧
      ∀ p : Nat, u.parent = some p →
        ∃ v ∈ s, v.id = p ∧ slotOf v sd = some u.id := by
  obtain ⟨inv, hpos⟩ := reachable_invariants h
  intro u hu
  cases hps : u.position with
  | none =>
    exfalso
    have := hpos u hu
    rw [hps] at this
    cases this
  | some sd =>
    refine ⟨sd, rfl, ?_⟩
    intro p hp
    obtain ⟨v, hv, hvid⟩ := inv.parentResolve u hu p hp
    obtain ⟨sd', hpos', hslot⟩ := inv.sideBack u hu p hp v hv hvid
    have hsd : sd' = sd := by
      rw [hps] at hpos'
      exact (Option.some.inj hpos').symm
    subst hsd
    exact ⟨v, hv, hvid, hslot⟩

theorem C8_side_invariant_witness :
    ∃ u, u ∈ wS2 ∧ u.id = 1 ∧ ∃ sd : Side2, u.position = some sd ∧
      ∃ v ∈ wS2, v.id = 0 ∧ slotOf v sd = some 1 := by
  have h1 : register [] wInp1 = .ok wS1 := rfl
  have h2 : register wS1 wInp2 = .ok wS2 := rfl
  have hreach : ReachableR wS2 :=
    ReachableR.step (ReachableR.step ReachableR.base h1) h2
  have hu : ∃ u, u ∈ wS2 ∧ u.id = 1 ∧ u.parent = some 0 := by decide
  obtain ⟨u, humem, huid, hup⟩ := hu
  obtain ⟨sd, hpos, hback⟩ := C8_side_invariant hreach u humem
  obtain ⟨v, hv, hvid, hslot⟩ := hback 0 hup
  refine ⟨u, humem, huid, sd, hpos, v, hv, hvid, ?_⟩
  rw [hslot, huid]

/-- C3: for every existing root and depth bound `d ∈ [1,5]`, the subtree
materialized by `buildTreeOptimized` contains no node at depth greater
than `d` (every emitted node's depth is its true child-edge distance from
the root and is at most `d`), contains every active stored node at depth
at most `d`, and every emitted node at depth exactly `d` carries no
`children` field even if it has further descendants in storage. -/
theorem C3_depth_bound {store : Store} (inv : Invariants store)
    {rootRec : UserRec} (hr : rootRec ∈ store) {d : Nat} (hd1 : 1 ≤ d)
    (hd5 : d ≤ 5) {t : TreeNode}
    (ht : buildTreeOptimized store rootRec.id d = some t) :
    (∀ s : TreeNode, InTree t s → s.core.depth ≤ d ∧
      ∃ u, DescAt store rootRec.id u s.core.depth ∧ u.id = s.core.id) ∧
    (∀ (u : UserRec) (k : Nat), DescAt store rootRec.id u k → k ≤ d →
      u.isActive = true →
      ∃ s, InTree t s ∧ s.core.id = u.id ∧ s.core.depth = k) ∧
    (∀ s : TreeNode, InTree t s → s.core.depth = d → s.childrenOpt = none) := by
  have hdesc0 : ∃ u, findById store rootRec.id = some u ∧
      DescAt store rootRec.id u 0 :=
    ⟨rootRec, findById_of_mem inv.nodup hr, DescAt.zero hr rfl⟩
  have ht' : buildNodeRecursive store rootRec.id d rootRec.id 0 = some t := ht
  refine ⟨?_, ?_, ?_⟩
  · intro s hin
    have h := build_sound_aux inv hr d hin rootRec.id 0 (by omega) hdesc0 ht'
    obtain ⟨u, hu, huid, -, -⟩ := h.2.2
    exact ⟨h.1, u, hu, huid⟩
  · intro u k hdk hkd _
    obtain ⟨s, hbs, hins⟩ := build_complete inv hr ht' hdk hkd
    obtain ⟨u', hmap, hcore⟩ := build_core hbs
    have hmap2 := mapLookup_of_descAt inv hr hdk hkd
    rw [hmap2] at hmap
    have hu : u' = u := (Option.some.inj hmap).symm
    subst hu
    refine ⟨s, hins, ?_, ?_⟩
    · rw [hcore]
    · rw [hcore]
  · intro s hin hsd
    exact (build_sound_aux inv hr d hin rootRec.id 0 (by omega) hdesc0 ht').2.1
      hsd

theorem C3_depth_bound_witness :
    ∃ t, buildTreeOptimized wStore 0 2 = some t ∧
      (∀ s : TreeNode, InTree t s → s.core.depth ≤ 2) ∧
      ∃ s, InTree t s ∧ s.core.id = 3 ∧ s.core.depth = 2 := by
  have hmap : mapLookup wStore 0 2 0 = some wU0 := by decide
  obtain ⟨t, ht⟩ := @build_isSome _ _ _ _ 0 _ hmap
  have h := C3_depth_bound wStore_invariants (show wU0 ∈ wStore by decide)
    (by omega) (by omega) ht
  have hdesc3 : DescAt wStore 0 wU3 2 :=
    @DescAt.succ wStore 0 wU1 wU3 1
      (@DescAt.succ wStore 0 wU0 wU1 0
        (@DescAt.zero wStore 0 wU0 (by decide) rfl) (by decide) (Or.inl rfl))
      (by decide) (Or.inl rfl)
  obtain ⟨s, hins, hid, hdep⟩ := h.2.1 wU3 2 hdesc3 (by omega) (by decide)
  exact ⟨t, ht, fun s' hin' => (h.1 s' hin').1, s, hins, hid, hdep⟩

/-- C10: the materializer applies no activity filter — every stored node
within the depth bound appears in the result, inactive ones included,
each carrying its own `isActive` flag (so subtrees hanging below inactive
nodes are still materialized on the same terms). -/
theorem C10_inactive_included {store : Store} (inv : Invariants store)
    {rootRec : UserRec} (hr : rootRec ∈ store) {d : Nat} (hd1 : 1 ≤ d)
    (hd5 : d ≤ 5) {t : TreeNode}
    (ht : buildTreeOptimized store rootRec.id d = some t) :
    ∀ (u : UserRec) (k : Nat), DescAt store rootRec.id u k → k ≤ d →
      ∃ s, InTree t s ∧ s.core.id = u.id ∧ s.core.depth = k ∧
        s.core.isActive = u.isActive := by
  have ht' : buildNodeRecursive store rootRec.id d rootRec.id 0 = some t := ht
  intro u k hdk hkd
  obtain ⟨s, hbs, hins⟩ := build_complete inv hr ht' hdk hkd
  obtain ⟨u', hmap, hcore⟩ := build_core hbs
  have hmap2 := mapLookup_of_descAt inv hr hdk hkd
  rw [hmap2] at hmap
  have hu : u' = u := (Option.some.inj hmap).symm
  subst hu
  refine ⟨s, hins, ?_, ?_, ?_⟩
  · rw [hcore]
  · rw [hcore]
  · rw [hcore]

theorem C10_inactive_included_witness :
    ∃ t, buildTreeOptimized wStore 0 2 = some t ∧
      ∃ s, InTree t s ∧ s.core.id = 2 ∧ s.core.depth = 1 ∧
        s.core.isActive = false := by
  have hmap : mapLookup wStore 0 2 0 = some wU0 := by decide
  obtain ⟨t, ht⟩ := @build_isSome _ _ _ _ 0 _ hmap
  have h := C10_inactive_included wStore_invariants
    (show wU0 ∈ wStore by decide) (by omega) (by omega) ht
  have hdesc2 : DescAt wStore 0 wU2 1 :=
    @DescAt.succ wStore 0 wU0 wU2 0
      (@DescAt.zero wStore 0 wU0 (by decide) rfl) (by decide) (Or.inr rfl)
  obtain ⟨s, hins, hid, hdep, hact⟩ := h wU2 1 hdesc2 (by omega)
  exact ⟨t, ht, s, hins, hid, hdep, hact⟩

/-- C4: the access guard is exact — `isUserDescendant` is true precisely
when the candidate is reachable from the ancestor by one or more child
edges, no node is its own descendant, and a `getUserTree` request (with a
valid depth) for an existing target that is neither the requester nor a
strict descendant of the requester fails with status 403 (Forbidden). -/
theorem C4_access_guard {store : Store} (inv : Invariants store)
    {aRec tRec : UserRec} (ha : aRec ∈ store) (htm : tRec ∈ store) :
    (isUserDescendant store aRec.id tRec.id = true ↔
      ∃ k, DescAt store aRec.id tRec (k + 1)) ∧
    isUserDescendant store aRec.id aRec.id = false ∧
    (∀ depth, 1 ≤ depth → depth ≤ 5 → tRec.id ≠ aRec.id →
      isUserDescendant store aRec.id tRec.id = false →
      getUserTree store tRec.id aRec.id depth = .error ⟨403⟩) := by
  refine ⟨?_, isUserDescendant_self inv ha, ?_⟩
  · rw [isUserDescendant_iff inv ha]
    constructor
    · rintro ⟨v, k, hk, hvid⟩
      have hv : v = tRec := id_inj inv.nodup (descAt_mem hk) htm hvid
      subst hv
      exact ⟨k, hk⟩
    · rintro ⟨k, hk⟩
      exact ⟨tRec, k, hk, rfl⟩
  · intro depth h1 h5 hne hnd
    have hfind := findById_of_mem inv.nodup htm
    unfold getUserTree
    rw [if_neg (by omega : ¬(depth < 1 ∨ 5 < depth))]
    rw [hfind]
    simp only []
    rw [if_pos ⟨hne, hnd⟩]

theorem C4_access_guard_witness :
    getUserTree wStore 2 1 3 = .error ⟨403⟩ ∧
      isUserDescendant wStore 1 1 = false := by
  have h := C4_access_guard wStore_invariants
    (show wU1 ∈ wStore by decide) (show wU2 ∈ wStore by decide)
  exact ⟨h.2.2 3 (by omega) (by omega) (by decide) (by decide), h.2.1⟩

/-- C5 (counterexample): `getDescendantsInLeg` is not unbounded — its
`$graphLookup` is capped at recursion depth 20 (21 child edges).  In a
23-node left chain the node 22 child edges below the leg root is a
reachable descendant but is missing from the result, refuting the claim
that every reachable node is returned. -/
theorem C5_counterexample :
    mkChainUser 22 ∈ chainStore ∧ (mkChainUser 22).id = 22 ∧
    DescAt chainStore 0 (mkChainUser 22) 22 ∧
    ¬(22 ∈ getDescendantsInLeg chainStore 0 Side2.LEFT) := by
  refine ⟨by decide, rfl, chain_descAt 22 (by omega), by decide⟩

/-- C5 (amended): for every existing leg root, `getDescendantsInLeg`
returns exactly the leg root's own id plus the ids of the nodes reachable
from it by between 1 and 21 child edges (the `$graphLookup` is capped at
recursion depth 20); descendants deeper than 21 edges are omitted. -/
theorem C5_leg_descendants {store : Store} (inv : Invariants store)
    {legRec : UserRec} (hl : legRec ∈ store) (side : Side2) (i : Nat) :
    i ∈ getDescendantsInLeg store legRec.id side ↔
      i = legRec.id ∨ ∃ (u : UserRec) (k : Nat), k + 1 ≤ 21 ∧
        DescAt store legRec.id u (k + 1) ∧ u.id = i := by
  unfold getDescendantsInLeg
  rw [findById_of_mem inv.nodup hl]
  simp only []
  rw [List.mem_cons]
  constructor
  · rintro (rfl | hmem)
    · exact Or.inl rfl
    · obtain ⟨k, hk, hmem'⟩ := List.mem_bind.mp hmem
      obtain ⟨u, hu, huid⟩ := List.mem_map.mp hmem'
      have hk21 : k < 21 := List.mem_range.mp hk
      exact Or.inr ⟨u, k, by omega, (mem_descLevel_iff inv hl k u).mp hu, huid⟩
  · rintro (rfl | ⟨u, k, hk21, hdk, huid⟩)
    · exact Or.inl rfl
    · right
      exact List.mem_bind.mpr ⟨k, List.mem_range.mpr (by omega),
        List.mem_map.mpr ⟨u, (mem_descLevel_iff inv hl k u).mpr hdk, huid⟩⟩

theorem C5_leg_descendants_witness :
    3 ∈ getDescendantsInLeg wStore 1 Side2.LEFT := by
  have h := C5_leg_descendants wStore_invariants
    (show wU1 ∈ wStore by decide) Side2.LEFT 3
  refine h.mpr (Or.inr ⟨wU3, 0, by omega, ?_, rfl⟩)
  exact @DescAt.succ wStore 1 wU1 wU3 0
    (@DescAt.zero wStore 1 wU1 (by decide) rfl) (by decide) (Or.inl rfl)

theorem cexStore6_invariants : Invariants cexStore6 := by
  refine ⟨by decide, by decide, by decide, by decide, by decide,
    ⟨fun i => i, by decide, by decide⟩⟩

/-- C6 (counterexample): in a two-node store (a root with exactly one
child, at depth 1), the maximum depth observed among the root's
descendants with the root at depth 0 is 1, so the claim's height — that
maximum plus one — is 2 and the claim predicts
`checkMinDepth(root, 2) = true`; the code computes `maxGraphDepth + 1 = 1`
(direct children sit at `$graphLookup` depth 0) and returns false. -/
theorem C6_counterexample :
    DescAt cexStore6 0 cexC6 1 ∧
    (∀ (v : UserRec) (k : Nat), DescAt cexStore6 0 v k → k ≤ 1) ∧
    checkMinDepthLevels cexStore6 0 2 = false := by
  refine ⟨?_, ?_, by decide⟩
  · exact @DescAt.succ cexStore6 0 cexR6 cexC6 0
      (@DescAt.zero cexStore6 0 cexR6 (by decide) rfl) (by decide) (Or.inl rfl)
  · intro v k h
    have hdep : ∀ u ∈ cexStore6, ∀ w ∈ cexStore6, w.parent = some u.id →
        (fun i => i) w.id = (fun i => i) u.id + 1 := by decide
    have hd := @descAt_dep cexStore6 cexStore6_invariants (fun i => i) hdep
      cexR6 (by decide) v k h
    beta_reduce at hd
    have hvm : v ∈ cexStore6 := descAt_mem h
    have hvlt : v.id < 2 := by
      have hall : ∀ u ∈ cexStore6, u.id < 2 := by decide
      exact hall v hvm
    have h0 : cexR6.id = 0 := rfl
    omega

/-- C6 (amended): for every existing node, `checkMinDepthLevels` returns
true exactly when `minLevels ≤ 0` (this is checked before anything else,
so `checkMinDepth(node, 0)` is always true) or some descendant sits
exactly `minLevels` child edges below the node.  The computed quantity
`maxDepth + 1` is the root-relative depth of the deepest descendant
(direct children sit at `$graphLookup` depth 0), which is one less than
the claim's "maximum observed depth (root at 0) plus one". -/
theorem C6_min_depth {store : Store} (inv : Invariants store)
    {uRec : UserRec} (hu : uRec ∈ store) (m : Int) :
    checkMinDepthLevels store uRec.id m = true ↔
      m ≤ 0 ∨ ∃ v : UserRec, DescAt store uRec.id v (Int.toNat m) := by
  unfold checkMinDepthLevels
  by_cases hm : m ≤ 0
  · rw [if_pos hm]
    simp [hm]
  · rw [if_neg hm]
    rw [findById_of_mem inv.nodup hu]
    simp only []
    rw [decide_eq_true_eq]
    constructor
    · intro hle
      right
      cases hmx : maxDescDepth store uRec.id with
      | none =>
        rw [hmx] at hle
        simp only [] at hle
        omega
      | some M =>
        rw [hmx] at hle
        simp only [] at hle
        unfold maxDescDepth at hmx
        obtain ⟨hMmem, -⟩ := maxNatList_spec hmx
        obtain ⟨k, hkr, hmap⟩ := List.mem_bind.mp hMmem
        obtain ⟨u, hul, huk⟩ := List.mem_map.mp hmap
        have hkM : k = M := huk
        subst hkM
        have hdu : DescAt store uRec.id u (k + 1) :=
          (mem_descLevel_iff inv hu k u).mp hul
        exact descAt_trunc hdu (Int.toNat m) (by omega)
    · rintro (hc | ⟨v, hv⟩)
      · exact absurd hc hm
      · have hmpos : 1 ≤ Int.toNat m := by omega
        have hk : Int.toNat m - 1 + 1 = Int.toNat m := by omega
        have hvl : v ∈ descLevel store uRec.id (Int.toNat m - 1) :=
          (mem_descLevel_iff inv hu _ v).mpr (hk ▸ hv)
        have hklt : Int.toNat m - 1 < store.length := by
          have := descAt_k_lt inv hu hv
          omega
        have hmemL : Int.toNat m - 1 ∈ (List.range store.length).bind
            (fun k => (descLevel store uRec.id k).map (fun _ => k)) :=
          List.mem_bind.mpr ⟨Int.toNat m - 1, List.mem_range.mpr hklt,
            List.mem_map.mpr ⟨v, hvl, rfl⟩⟩
        cases hmx : maxDescDepth store uRec.id with
        | none =>
          exfalso
          unfold maxDescDepth at hmx
          rw [maxNatList_eq_none] at hmx
          rw [hmx] at hmemL
          cases hmemL
        | some M =>
          simp only []
          unfold maxDescDepth at hmx
          obtain ⟨-, hbd⟩ := maxNatList_spec hmx
          have := hbd _ hmemL
          omega

theorem C6_min_depth_witness : checkMinDepthLevels wStore 0 2 = true := by
  have h := C6_min_depth wStore_invariants (show wU0 ∈ wStore by decide) 2
  refine h.mpr (Or.inr ⟨wU3, ?_⟩)
  exact @DescAt.succ wStore 0 wU1 wU3 1
    (@DescAt.succ wStore 0 wU0 wU1 0
      (@DescAt.zero wStore 0 wU0 (by decide) rfl) (by decide) (Or.inl rfl))
    (by decide) (Or.inl rfl)

/-- C7 (counterexample): in `cexStore7` the base node `cexX7` sits on the
LEFT slot of its parent `cexP7` (the edge just traversed is LEFT), yet
the single ancestors entry for `cexP7` records RIGHT — `cexP7`'s own
stored position under the root.  The root itself (undefined position) is
dropped rather than recorded with the traversed edge's side.  This
refutes the claim that each entry records the side of the previously
visited node under that ancestor. -/
theorem C7_counterexample :
    getUserAncestors cexStore7 2 = [⟨1, Side2.RIGHT⟩] ∧
    cexP7.leftChild = some cexX7.id ∧ cexP7.rightChild = none :=
  ⟨by decide, rfl, rfl⟩

/-- C7 (amended): each entry of the ancestors list records as `site` the
ancestor's own stored position — the slot under which the ancestor's own
parent points back to it — not the side of the previously visited node;
ancestors that are inactive or carry no position (the root) are omitted.
Membership is exactly: the active, positioned strict ancestors. -/
theorem C7_ancestor_sides {store : Store} (inv : Invariants store)
    {uRec : UserRec} (hu : uRec ∈ store) (e : AncestorEntry) :
    e ∈ getUserAncestors store uRec.id ↔
      ∃ a : UserRec, AncOf store uRec a ∧ a.isActive = true ∧
        a.position = some e.site ∧ a.id = e.userId ∧
        ∀ p : Nat, a.parent = some p → ∀ v ∈ store, v.id = p →
          slotOf v e.site = some a.id := by
  rw [getUserAncestors_iff inv hu]
  constructor
  · rintro ⟨a, hanc, hact, hpos, hid⟩
    refine ⟨a, hanc, hact, hpos, hid, ?_⟩
    intro p hp v hv hvid
    obtain ⟨sd, hpos', hslot⟩ := inv.sideBack a (ancOf_mem hanc) p hp v hv hvid
    rw [hpos] at hpos'
    have hsd := Option.some.inj hpos'
    rw [← hsd] at hslot
    exact hslot
  · rintro ⟨a, hanc, hact, hpos, hid, -⟩
    exact ⟨a, hanc, hact, hpos, hid⟩

theorem C7_ancestor_sides_witness :
    (⟨1, Side2.LEFT⟩ : AncestorEntry) ∈ getUserAncestors wStore 3 := by
  have h := C7_ancestor_sides wStore_invariants
    (show wU3 ∈ wStore by decide) ⟨1, Side2.LEFT⟩
  exact h.mpr ⟨wU1, AncOf.single rfl (by decide), rfl, rfl, rfl, by decide⟩

/-- C9: `searchUsersInTree` fails with status 400 exactly when the
trimmed term is shorter than 2 characters; otherwise it succeeds, the
reported `total` is the size of the case-insensitively filtered active
descendant set (whose membership is exactly the active strict descendants
matching the term, with no duplicate ids, so it is the number of matching
descendants — not the unfiltered count), and the returned results are
the `(page-1)*limit .. +limit` slice of that filtered list. -/
theorem C9_search {store : Store} (inv : Invariants store)
    {rootRec : UserRec} (hr : rootRec ∈ store) (search : List Char)
    (page limit : Nat) (hpage : 1 ≤ page) (hlim : 1 ≤ limit) :
    ((trimChars search).length < 2 →
      searchUsersInTree store rootRec.id search page limit = .error ⟨400⟩) ∧
    (2 ≤ (trimChars search).length →
      ∃ resp, searchUsersInTree store rootRec.id search page limit = .ok resp ∧
        resp.total = ((allActiveDescendants store rootRec.id).filter
          (matchesTerm (lowerChars (trimChars search)))).length ∧
        resp.results = ((((allActiveDescendants store rootRec.id).filter
          (matchesTerm (lowerChars (trimChars search)))).drop
            ((page - 1) * limit)).take limit).map (fun u => ⟨u.id, u.isActive⟩) ∧
        (∀ v : UserRec, v ∈ (allActiveDescendants store rootRec.id).filter
            (matchesTerm (lowerChars (trimChars search))) ↔
          (∃ k, DescAt store rootRec.id v (k + 1)) ∧ v.isActive = true ∧
            matchesTerm (lowerChars (trimChars search)) v = true) ∧
        (((allActiveDescendants store rootRec.id).filter
          (matchesTerm (lowerChars (trimChars search)))).map
            (fun u => u.id)).Nodup) := by
  constructor
  · intro h
    unfold searchUsersInTree
    rw [if_pos h]
  · intro h
    unfold searchUsersInTree
    rw [if_neg (by omega)]
    refine ⟨_, rfl, rfl, rfl, ?_, ?_⟩
    · intro v
      rw [List.mem_filter]
      rw [mem_allActiveDescendants_iff inv hr]
      constructor
      · rintro ⟨⟨hk, hact⟩, hmatch⟩
        exact ⟨hk, hact, hmatch⟩
      · rintro ⟨hk, hact, hmatch⟩
        exact ⟨⟨hk, hact⟩, hmatch⟩
    · have hsub : List.Sublist
          ((allActiveDescendants store rootRec.id).filter
            (matchesTerm (lowerChars (trimChars search))))
          (allActiveDescendants store rootRec.id) := List.filter_sublist _
      exact (hsub.map (fun u => u.id)).nodup
        (allActiveDescendants_ids_nodup inv hr)

theorem C9_search_witness :
    ∃ resp, searchUsersInTree wStore 0 ['a', 'l'] 1 20 = .ok resp ∧
      resp.total = ((allActiveDescendants wStore 0).filter
        (matchesTerm (lowerChars (trimChars ['a', 'l'])))).length := by
  have h := C9_search wStore_invariants (show wU0 ∈ wStore by decide)
    ['a', 'l'] 1 20 (by omega) (by omega)
  obtain ⟨resp, he, ht, -⟩ := h.2 (by decide)
  exact ⟨resp, he, ht⟩
